import Mathlib

/-!
Verification of the recipe resolution and application engine of `workspace-cli`.

The TypeScript sources are shallowly embedded:
* JSON-like runtime values become the inductive `JValue`; JavaScript objects
  become insertion-ordered association lists (`List (String × _)`).
* The filesystem becomes a partial map `FS := String → Option String`
  (path to file content); external processes (hooks, git, Handlebars
  rendering, YAML/JSON parsing) become oracle parameters.
* Asynchronous code is sequential in the source (every call is awaited),
  so it is embedded as ordinary state-passing functions; fallible code
  returns `Except`.
* The recursive dependency resolver receives an explicit fuel parameter;
  fuel exhaustion is a distinguished outcome (`ResolveErr.outOfFuel`).
-/

/-- JSON-like runtime values (the values appearing in manifests, variable
maps and merge payloads).  Numbers are modelled as integers. -/
inductive JValue where
  | str (s : String)
  | num (n : Int)
  | bool (b : Bool)
  | null
  | arr (elems : List JValue)
  | obj (fields : List (String × JValue))
deriving Inhabited

/-- A JavaScript object: insertion-ordered association list. -/
abbrev JObj := List (String × JValue)

/-- First-match lookup in an association list (JS property access). -/
def lookupKey {α : Type} (k : String) : List (String × α) → Option α
  | [] => none
  | (k', v) :: rest => if k' = k then some v else lookupKey k rest

/-- JS property assignment `m[k] = v`: replaces the value in place if the
key is present (keeping its position), otherwise appends. -/
def setKey {α : Type} (m : List (String × α)) (k : String) (v : α) : List (String × α) :=
  match m with
  | [] => [(k, v)]
  | (k', v') :: rest => if k' = k then (k', v) :: rest else (k', v') :: setKey rest k v

/-- JS object spread `{...a, ...b}`: keys of `a` in order with values
updated in place by `b`, new keys of `b` appended in order. -/
def spreadInto {α : Type} (a b : List (String × α)) : List (String × α) :=
  b.foldl (fun m p => setKey m p.1 p.2) a

/-- Truthiness of an optional string field (JS: `undefined` and `""` are falsy). -/
def truthyOptStr (o : Option String) : Bool :=
  match o with
  | none => false
  | some s => s ≠ ""

/-- `startsWithList s pat` : `pat` is a prefix of `s`. -/
def startsWithList : List Char → List Char → Bool
  | _, [] => true
  | [], _ :: _ => false
  | c :: cs, d :: ds => c = d && startsWithList cs ds

/-- `containsSubList s pat` : `pat` occurs as a contiguous sublist of `s`
(the semantics of JS `String.prototype.includes`). -/
def containsSubList : List Char → List Char → Bool
  | [], pat => pat.isEmpty
  | c :: cs, pat => startsWithList (c :: cs) pat || containsSubList cs pat

/-- JS `s.includes(sub)`. -/
def jsIncludes (s sub : String) : Bool :=
  containsSubList s.data sub.data

/-- Whitespace characters stripped by JS `String.prototype.trim`
(restricted to the ASCII whitespace relevant to recipe texts). -/
def isJsWs (c : Char) : Bool :=
  c = ' ' || c = '\t' || c = '\n' || c = '\r' || c = '\x0b' || c = '\x0c'

/-- JS `s.trim()` on character lists: drop leading and trailing whitespace. -/
def jsTrimList (cs : List Char) : List Char :=
  ((cs.dropWhile isJsWs).reverse.dropWhile isJsWs).reverse

/-- JS `s.trim()`. -/
def jsTrim (s : String) : String :=
  ⟨jsTrimList s.data⟩

/-- Number of (possibly overlapping) occurrence positions of `pat` in `s`. -/
def countOccAux : List Char → List Char → Nat
  | [], pat => if startsWithList [] pat then 1 else 0
  | c :: cs, pat => (if startsWithList (c :: cs) pat then 1 else 0) + countOccAux cs pat

/-- Number of positions at which `pat` occurs in `s`. -/
def countOcc (s pat : String) : Nat :=
  countOccAux s.data pat.data

/-- Split on a single-character separator (the semantics of JS
`s.split("|")`; the source only ever splits on `"|"`). -/
def splitOnChar (sep : Char) : List Char → List (List Char)
  | [] => [[]]
  | c :: cs =>
    if c = sep then [] :: splitOnChar sep cs
    else
      match splitOnChar sep cs with
      | [] => [[c]]
      | g :: gs => (c :: g) :: gs

/-- JS `s.split(sep)` for a one-character separator. -/
def jsSplit (s : String) (sep : Char) : List String :=
  (splitOnChar sep s.data).map (fun l => ⟨l⟩)

/-- `path.join` (modelled as separator concatenation; the embedding never
relies on path normalization). -/
def pathJoin (a b : String) : String := a ++ "/" ++ b

instance {ε α : Type} [DecidableEq ε] [DecidableEq α] : DecidableEq (Except ε α) := fun a b =>
  match a, b with
  | .ok x, .ok y => decidable_of_iff (x = y) (by simp)
  | .error x, .error y => decidable_of_iff (x = y) (by simp)
  | .ok _, .error _ => isFalse (by simp)
  | .error _, .ok _ => isFalse (by simp)

/-! ## Data model (src/types.ts) -/

/-- A declared recipe variable (`variables` map entry). -/
structure RVariable where
  type : String
  default : JValue
deriving Inhabited

/-- The `when` conditional gate of a generation rule. -/
structure WhenCond where
  file_exists : Option String := none
  file_not_exists : Option String := none
deriving Inhabited

/-- One file-generation rule (`GenerateRule` in src/types.ts). -/
structure GenerateRule where
  path : String
  template : Option String := none
  content : Option String := none
  append : Option String := none
  merge : Option JObj := none
  overwrite : Option Bool := none
  «when» : Option WhenCond := none
deriving Inhabited

/-- A recipe manifest (`Recipe` in src/types.ts); fields irrelevant to the
claims (description, commands, validates, hooks, detect) are omitted from
the embedding — no claim mentions them. -/
structure Recipe where
  name : String
  version : String
  scope : Option String := none
  requires : Option (List String) := none
  conflicts : Option (List String) := none
  «variables» : Option (List (String × RVariable)) := none
  generates : Option (List GenerateRule) := none
deriving Inhabited

/-- An installed-recipe record in the workspace config. -/
structure InstalledRecipe where
  name : String
  version : String
  applied_at : String
deriving Inhabited

/-- Per-recipe variable override map. -/
abbrev VarMap := JObj

/-- Persisted workspace config (`WorkspaceConfig` in src/types.ts). -/
structure WorkspaceConfig where
  name : String
  created_at : String
  recipes : List InstalledRecipe
  pending : List String
  «variables» : List (String × VarMap)
deriving Inhabited

/-- Persisted lock document (`WorkspaceLock` in src/types.ts). -/
structure WorkspaceLock where
  applied_at : String
  recipes : List InstalledRecipe
  «variables» : List (String × VarMap)
deriving Inhabited

/-! ## Dependency resolver (src/lib/recipes.ts, `resolveRecipeDependencies`)

`loadRecipe` performs filesystem and network I/O, so the resolver is
embedded relative to a loader oracle
`env : String → Except String (Option Recipe)`:
`.error msg` models a rejected load (a `ManifestInvalid` throw),
`.ok none` models `null` (not found), `.ok (some r)` a successful load. -/

/-- Loader oracle outcome type. -/
abbrev LoadEnv := String → Except String (Option Recipe)

/-- Failure modes of dependency resolution.  `outOfFuel` is an artifact of
the fuel-indexed embedding of the unbounded recursion. -/
inductive ResolveErr where
  | outOfFuel
  | circular (name : String)
  | notFound (name : String)
  | unsatisfied (dep requiredBy : String)
  | manifestInvalid (msg : String)
deriving DecidableEq, Inhabited

/-- Resolver traversal state: the output order and the two explicit sets of
the DFS (`resolved`, `seen`, `visiting` in the source). -/
structure RState where
  resolved : List String
  seen : List String
  visiting : List String
deriving Inhabited

/-- `Promise.all(alternatives.map((alt) => loadRecipe(alt.trim(), ...)))`:
load every candidate; a rejected candidate load rejects the whole step
(modelled as the first error in index order). -/
def loadAll (env : LoadEnv) : List String → Except String (List (Option Recipe))
  | [] => .ok []
  | alt :: rest =>
    match env (jsTrim alt) with
    | .error msg => .error msg
    | .ok b =>
      match loadAll env rest with
      | .error msg => .error msg
      | .ok bs => .ok (b :: bs)

/-- Alternation handling inside `visit` (lines 215-226 of recipes.ts):
split the requirement on `"|"`, load every candidate, and pick the first
alternative whose load returned non-null
(`alternatives.find((_, i) => available[i] !== null)`). -/
def selectAlternative (env : LoadEnv) (dep : String) : Except String (Option String) :=
  let alternatives := jsSplit dep '|'
  match loadAll env alternatives with
  | .error msg => .error msg
  | .ok available => .ok (((alternatives.zip available).find? (fun p => p.2.isSome)).map (fun p => p.1))

/-- The `for (const dep of recipe.requires)` loop inside `visit`; the
recursive visitor (already holding the current fuel) is passed in as
`visitF`. -/
def visitDeps (env : LoadEnv) (visitF : String → RState → Except ResolveErr RState) :
    List String → String → RState → Except ResolveErr RState
  | [], _, st => .ok st
  | dep :: rest, name, st =>
    match selectAlternative env dep with
    | .error msg => .error (.manifestInvalid msg)
    | .ok none => .error (.unsatisfied dep name)
    | .ok (some alt) =>
      match visitF (jsTrim alt) st with
      | .error e => .error e
      | .ok st' => visitDeps env visitF rest name st'

/-- The recursive `visit` of `resolveRecipeDependencies`. -/
def visit (env : LoadEnv) : Nat → String → RState → Except ResolveErr RState
  | 0, _, _ => .error .outOfFuel
  | Nat.succ fuel, name, st =>
    if st.seen.contains name then .ok st
    else if st.visiting.contains name then .error (.circular name)
    else
      -- `visiting.add(name)` happens before the load; the updated state is
      -- passed to the dependency loop below
      match env name with
      | .error msg => .error (.manifestInvalid msg)
      | .ok none => .error (.notFound name)
      | .ok (some recipe) =>
        match visitDeps env (visit env fuel) (recipe.requires.getD []) name
            { st with visiting := st.visiting ++ [name] } with
        | .error e => .error e
        | .ok st2 =>
          .ok { resolved := st2.resolved ++ [name]
                seen := st2.seen ++ [name]
                visiting := st2.visiting.erase name }

/-- The `for (const name of names) await visit(name)` loop. -/
def visitAll (env : LoadEnv) (fuel : Nat) : List String → RState → Except ResolveErr RState
  | [], st => .ok st
  | name :: rest, st =>
    match visit env fuel name st with
    | .error e => .error e
    | .ok st' => visitAll env fuel rest st'

/-- `resolveRecipeDependencies` (topological sort of the requirement graph). -/
def resolveRecipeDependencies (env : LoadEnv) (fuel : Nat) (names : List String) :
    Except ResolveErr (List String) :=
  match visitAll env fuel names ⟨[], [], []⟩ with
  | .error e => .error e
  | .ok st => .ok st.resolved

/-- The resolved (selected-alternative) requirement edge: `a` requires `b`
because some declared requirement of `a`'s manifest selects `b` as its
first loadable candidate. -/
def selectedDep (env : LoadEnv) (a b : String) : Prop :=
  ∃ r, env a = .ok (some r) ∧
    ∃ dep, dep ∈ r.requires.getD [] ∧
      ∃ alt, selectAlternative env dep = .ok (some alt) ∧ b = jsTrim alt

/-! ## Resolver invariants: output order respects selected dependencies -/

/-- `b` occurs strictly before `a` in `l`. -/
def precedes (l : List String) (b a : String) : Prop :=
  b ∈ l ∧ a ∈ l ∧ l.indexOf b < l.indexOf a

theorem precedes_trans {l : List String} {c b a : String}
    (h1 : precedes l c b) (h2 : precedes l b a) : precedes l c a :=
  ⟨h1.1, h2.2.1, lt_trans h1.2.2 h2.2.2⟩

theorem precedes_append {l t : List String} {b a : String}
    (h : precedes l b a) : precedes (l ++ t) b a := by
  obtain ⟨hb, ha, hlt⟩ := h
  exact ⟨List.mem_append_left _ hb, List.mem_append_left _ ha, by
    rwa [List.indexOf_append_of_mem hb, List.indexOf_append_of_mem ha]⟩

theorem precedes_concat {l : List String} {b a : String}
    (hb : b ∈ l) (ha : a ∉ l) : precedes (l ++ [a]) b a := by
  refine ⟨List.mem_append_left _ hb, List.mem_append_right _ (by simp), ?_⟩
  rw [List.indexOf_append_of_mem hb, List.indexOf_append_of_not_mem ha]
  have hlt : l.indexOf b < l.length := List.indexOf_lt_length.mpr hb
  simp only [List.indexOf_cons_self]
  omega

theorem precedes_irrefl {l : List String} {a : String} (h : precedes l a a) : False :=
  lt_irrefl _ h.2.2

/-- The `seen` set and the `resolved` output list always hold the same names. -/
def SeenInv (st : RState) : Prop := ∀ x : String, x ∈ st.seen ↔ x ∈ st.resolved

/-- The output list is topologically ordered with respect to the selected
requirement edges: every member's selected dependencies occur earlier. -/
def Ordered (env : LoadEnv) (l : List String) : Prop :=
  ∀ a, a ∈ l → ∀ b, selectedDep env a b → precedes l b a

/-- Invariant carried by the DFS state. -/
def RInv (env : LoadEnv) (st : RState) : Prop :=
  SeenInv st ∧ st.resolved.Nodup ∧ Ordered env st.resolved

/-- Postcondition of a successful `visit name`. -/
def VisitPost (env : LoadEnv) (name : String) (st st' : RState) : Prop :=
  (∃ t, st'.resolved = st.resolved ++ t) ∧
  (∃ t, st'.seen = st.seen ++ t) ∧
  st'.visiting = st.visiting ∧
  name ∈ st'.seen ∧
  (∀ x, x ∈ st'.resolved → x ∈ st.resolved ∨ x ∉ st.visiting) ∧
  (RInv env st → RInv env st')

/-- Postcondition of a successful `visitDeps deps`. -/
def DepsPost (env : LoadEnv) (deps : List String) (st st' : RState) : Prop :=
  (∃ t, st'.resolved = st.resolved ++ t) ∧
  (∃ t, st'.seen = st.seen ++ t) ∧
  st'.visiting = st.visiting ∧
  (∀ x, x ∈ st'.resolved → x ∈ st.resolved ∨ x ∉ st.visiting) ∧
  (RInv env st → RInv env st') ∧
  (∀ dep, dep ∈ deps → ∀ alt, selectAlternative env dep = .ok (some alt) →
    jsTrim alt ∈ st'.seen)

theorem visitDeps_post (env : LoadEnv) (visitF : String → RState → Except ResolveErr RState)
    (hF : ∀ n st st', visitF n st = .ok st' → VisitPost env n st st') :
    ∀ deps name st st', visitDeps env visitF deps name st = .ok st' → DepsPost env deps st st' := by
  intro deps
  induction deps with
  | nil =>
    intro name st st' h
    simp only [visitDeps] at h
    cases h
    exact ⟨⟨[], by simp⟩, ⟨[], by simp⟩, rfl, fun x hx => .inl hx, id, by simp⟩
  | cons dep rest ih =>
    intro name st st' h
    rw [visitDeps] at h
    split at h
    · exact absurd h (by simp)
    · exact absurd h (by simp)
    · rename_i alt hsel
      split at h
      · exact absurd h (by simp)
      · rename_i stm hv
        obtain ⟨⟨t1, hr1⟩, ⟨s1, hs1⟩, hvis1, hmem1, hnew1, hinv1⟩ := hF _ _ _ hv
        obtain ⟨⟨t2, hr2⟩, ⟨s2, hs2⟩, hvis2, hnew2, hinv2, hdeps2⟩ := ih name stm st' h
        refine ⟨⟨t1 ++ t2, by rw [hr2, hr1, List.append_assoc]⟩,
                ⟨s1 ++ s2, by rw [hs2, hs1, List.append_assoc]⟩,
                by rw [hvis2, hvis1], ?_, fun hq => hinv2 (hinv1 hq), ?_⟩
        · intro x hx
          rcases hnew2 x hx with hx' | hx'
          · exact hnew1 x hx'
          · rw [hvis1] at hx'
            exact .inr hx'
        · intro d hd alt' hsel'
          rcases List.mem_cons.mp hd with rfl | hd'
          · rw [hsel] at hsel'
            cases hsel'
            rw [hs2]
            exact List.mem_append_left _ hmem1
          · exact hdeps2 d hd' alt' hsel'

theorem step_inv (env : LoadEnv) {st st2 : RState} {name : String} {recipe : Recipe}
    (henv : env name = .ok (some recipe))
    (hseen : name ∉ st.seen) (hvisit : name ∉ st.visiting)
    (hpost : DepsPost env (recipe.requires.getD [])
      { st with visiting := st.visiting ++ [name] } st2)
    (hinv : RInv env st) :
    RInv env ⟨st2.resolved ++ [name], st2.seen ++ [name], st2.visiting.erase name⟩ := by
  obtain ⟨⟨t, hres⟩, ⟨s, hsn⟩, hvis2, hnew2, hinv2, hdeps2⟩ := hpost
  have hinv2' : RInv env st2 := hinv2 hinv
  have hnres : name ∉ st.resolved := fun hm => hseen ((hinv.1 name).mpr hm)
  have hnres2 : name ∉ st2.resolved := by
    intro hm
    rcases hnew2 name hm with hq | hq
    · exact hnres hq
    · exact hq (List.mem_append_right _ (by simp))
  refine ⟨?_, ?_, ?_⟩
  · intro x
    simp only [List.mem_append, List.mem_singleton]
    rw [hinv2'.1 x]
  · exact hinv2'.2.1.append (List.nodup_singleton name)
      (fun x hx hx' => by rw [List.mem_singleton] at hx'; subst hx'; exact hnres2 hx)
  · intro a ha b hdep
    rcases List.mem_append.mp ha with ha' | ha'
    · exact precedes_append (hinv2'.2.2 a ha' b hdep)
    · rw [List.mem_singleton] at ha'
      subst ha'
      obtain ⟨r, hr, dep, hdep', alt, hsel, rfl⟩ := hdep
      rw [henv] at hr
      cases hr
      have hmem : jsTrim alt ∈ st2.seen := hdeps2 dep hdep' alt hsel
      exact precedes_concat ((hinv2'.1 _).mp hmem) hnres2

theorem visit_post (env : LoadEnv) :
    ∀ fuel name st st', visit env fuel name st = .ok st' → VisitPost env name st st' := by
  intro fuel
  induction fuel with
  | zero => intro name st st' h; rw [visit] at h; exact absurd h (by simp)
  | succ f ih =>
    intro name st st' h
    rw [visit] at h
    by_cases hseen : st.seen.contains name
    · rw [if_pos hseen] at h
      cases h
      exact ⟨⟨[], by simp⟩, ⟨[], by simp⟩, rfl, by simpa using hseen, fun x hx => .inl hx, id⟩
    · rw [if_neg hseen] at h
      by_cases hvisit : st.visiting.contains name
      · rw [if_pos hvisit] at h; exact absurd h (by simp)
      · rw [if_neg hvisit] at h
        have hseen' : name ∉ st.seen := by simpa using hseen
        have hvisit' : name ∉ st.visiting := by simpa using hvisit
        split at h
        · exact absurd h (by simp)
        · exact absurd h (by simp)
        · rename_i recipe henv
          split at h
          · exact absurd h (by simp)
          · rename_i st2 hdeps
            cases h
            obtain ⟨⟨t, hres⟩, ⟨s, hsn⟩, hvis2, hnew2, hinv2, hdeps2⟩ :=
              visitDeps_post env (visit env f) (ih) _ name _ st2 hdeps
            refine ⟨⟨t ++ [name], by rw [← List.append_assoc]; simp [hres]⟩,
                    ⟨s ++ [name], by rw [← List.append_assoc]; simp [hsn]⟩, ?_,
                    List.mem_append_right _ (by simp), ?_, ?_⟩
            · show st2.visiting.erase name = st.visiting
              have : st2.visiting = st.visiting ++ [name] := hvis2
              rw [this, List.erase_append_right _ hvisit', List.erase_cons_head]
              simp
            · intro x hx
              rcases List.mem_append.mp hx with hx' | hx'
              · rcases hnew2 x hx' with hq | hq
                · exact .inl hq
                · exact .inr (fun hm => hq (List.mem_append_left _ hm))
              · rw [List.mem_singleton] at hx'
                subst hx'
                exact .inr hvisit'
            · intro hinv
              exact step_inv env henv hseen' hvisit'
                ⟨⟨t, hres⟩, ⟨s, hsn⟩, hvis2, hnew2, hinv2, hdeps2⟩ hinv

theorem visitAll_post (env : LoadEnv) (fuel : Nat) :
    ∀ names st st', visitAll env fuel names st = .ok st' →
      (∃ t, st'.resolved = st.resolved ++ t) ∧
      st'.visiting = st.visiting ∧
      (RInv env st → RInv env st') ∧
      (∀ n, n ∈ names → n ∈ st'.seen) ∧
      (∃ t, st'.seen = st.seen ++ t) := by
  intro names
  induction names with
  | nil =>
    intro st st' h
    rw [visitAll] at h
    cases h
    exact ⟨⟨[], by simp⟩, rfl, id, by simp, ⟨[], by simp⟩⟩
  | cons name rest ih =>
    intro st st' h
    rw [visitAll] at h
    split at h
    · exact absurd h (by simp)
    · rename_i stm hv
      obtain ⟨⟨t1, hr1⟩, ⟨s1, hs1⟩, hvis1, hmem1, _, hinv1⟩ := visit_post env fuel name st stm hv
      obtain ⟨⟨t2, hr2⟩, hvis2, hinv2, hmem2, ⟨s2, hs2⟩⟩ := ih stm st' h
      refine ⟨⟨t1 ++ t2, by rw [hr2, hr1, List.append_assoc]⟩, by rw [hvis2, hvis1],
              fun hq => hinv2 (hinv1 hq), ?_, ⟨s1 ++ s2, by rw [hs2, hs1, List.append_assoc]⟩⟩
      intro n hn
      rcases List.mem_cons.mp hn with rfl | hn'
      · rw [hs2]; exact List.mem_append_left _ hmem1
      · exact hmem2 n hn'

/-- Whenever `resolveRecipeDependencies` succeeds its output is duplicate-free,
contains every requested name, and is topologically ordered with respect to
the selected requirement edges. -/
theorem resolve_ok_props {env : LoadEnv} {fuel : Nat} {names order : List String}
    (h : resolveRecipeDependencies env fuel names = .ok order) :
    Ordered env order ∧ order.Nodup ∧ ∀ n, n ∈ names → n ∈ order := by
  rw [resolveRecipeDependencies] at h
  split at h
  · exact absurd h (by simp)
  · rename_i st hva
    cases h
    obtain ⟨_, _, hinv, hmem, _⟩ := visitAll_post env fuel names ⟨[], [], []⟩ st hva
    have hinv' : RInv env st :=
      hinv ⟨fun x => by simp [SeenInv], by simp, fun a ha => by simp at ha⟩
    exact ⟨hinv'.2.2, hinv'.2.1,
      fun n hn => (hinv'.1 n).mp (hmem n hn)⟩

/-- In a topologically ordered list, transitively required recipes also
occur strictly earlier. -/
theorem ordered_transGen {env : LoadEnv} {order : List String} (hord : Ordered env order) :
    ∀ a b, Relation.TransGen (selectedDep env) a b → a ∈ order → precedes order b a := by
  intro a b h
  induction h with
  | single hstep => exact fun ha => hord a ha _ hstep
  | tail hab hbc ih =>
    intro ha
    have hpred := ih ha
    exact precedes_trans (hord _ hpred.1 _ hbc) hpred

/-- Every selected dependency of a member of the output is itself in the
output; hence everything reachable from the requested names is. -/
theorem resolve_ok_closed {env : LoadEnv} {fuel : Nat} {names order : List String}
    (h : resolveRecipeDependencies env fuel names = .ok order) :
    ∀ n c, n ∈ names → Relation.ReflTransGen (selectedDep env) n c → c ∈ order := by
  obtain ⟨hord, _, hmem⟩ := resolve_ok_props h
  intro n c hn hreach
  induction hreach with
  | refl => exact hmem n hn
  | tail _ hstep ih => exact (hord _ ih _ hstep).1

/-- If a requirement cycle is reachable from the requested names, resolution
can never succeed. -/
theorem resolve_cyclic_never_ok {env : LoadEnv} {names : List String}
    {n c : String} (hn : n ∈ names)
    (hreach : Relation.ReflTransGen (selectedDep env) n c)
    (hcyc : Relation.TransGen (selectedDep env) c c) :
    ∀ fuel order, resolveRecipeDependencies env fuel names ≠ .ok order := by
  intro fuel order h
  obtain ⟨hord, _, _⟩ := resolve_ok_props h
  have hc : c ∈ order := resolve_ok_closed h n c hn hreach
  exact precedes_irrefl (ordered_transGen hord c c hcyc hc)

/-- Totality hypotheses for resolution: `U` is a finite universe of names
closed under selected dependencies, every name in `U` loads, and every
declared requirement of a loaded manifest in `U` selects some alternative
("all manifests load" in the specification). -/
structure EnvTotal (env : LoadEnv) (U : List String) : Prop where
  load : ∀ a, a ∈ U → ∃ r, env a = .ok (some r)
  sat : ∀ a, a ∈ U → ∀ r, env a = .ok (some r) →
    ∀ dep, dep ∈ r.requires.getD [] → ∃ alt, selectAlternative env dep = .ok (some alt)
  closed : ∀ a, a ∈ U → ∀ b, selectedDep env a b → b ∈ U

theorem length_le_of_nodup_subset {l U : List String} (h : l.Nodup)
    (hsub : ∀ x, x ∈ l → x ∈ U) : l.length ≤ U.length := by
  classical
  calc l.length = l.toFinset.card := (List.toFinset_card_of_nodup h).symm
    _ ≤ U.toFinset.card := Finset.card_le_card (by
        intro x hx
        simp only [List.mem_toFinset] at *
        exact hsub x hx)
    _ ≤ U.length := by simpa using List.toFinset_card_le U

/-- Outcome disjunction used by the totality lemmas. -/
def OkOrCircular (env : LoadEnv) (res : Except ResolveErr RState) : Prop :=
  (∃ st', res = .ok st') ∨
  (∃ c, res = .error (.circular c) ∧ Relation.TransGen (selectedDep env) c c)

theorem visitDeps_total (env : LoadEnv) (U : List String) (ht : EnvTotal env U) (f : Nat)
    (ihv : ∀ name st, name ∈ U → st.visiting.Nodup → (∀ v, v ∈ st.visiting → v ∈ U) →
      (∀ v, v ∈ st.visiting → Relation.TransGen (selectedDep env) v name) →
      U.length + 1 ≤ f + st.visiting.length →
      OkOrCircular env (visit env f name st)) :
    ∀ deps name st,
      (∀ dep, dep ∈ deps → ∃ alt, selectAlternative env dep = .ok (some alt)) →
      (∀ dep, dep ∈ deps → ∀ alt, selectAlternative env dep = .ok (some alt) →
        jsTrim alt ∈ U ∧
          ∀ v, v ∈ st.visiting → Relation.TransGen (selectedDep env) v (jsTrim alt)) →
      st.visiting.Nodup → (∀ v, v ∈ st.visiting → v ∈ U) →
      U.length + 1 ≤ f + st.visiting.length →
      OkOrCircular env (visitDeps env (visit env f) deps name st) := by
  intro deps
  induction deps with
  | nil => intro name st _ _ _ _ _; exact .inl ⟨st, by rw [visitDeps]⟩
  | cons dep rest ih =>
    intro name st hsat hchild hnd hsubU hfuel
    obtain ⟨alt, hsel⟩ := hsat dep (by simp)
    obtain ⟨haltU, haltanc⟩ := hchild dep (by simp) alt hsel
    have heq : visitDeps env (visit env f) (dep :: rest) name st =
        match visit env f (jsTrim alt) st with
        | .error e => .error e
        | .ok st' => visitDeps env (visit env f) rest name st' := by
      rw [visitDeps, hsel]
    rcases ihv (jsTrim alt) st haltU hnd hsubU haltanc hfuel with ⟨stm, hok⟩ | ⟨c, herr, hcyc⟩
    · have hvis : stm.visiting = st.visiting := (visit_post env f _ st stm hok).2.2.1
      have := ih name stm
        (fun d hd => hsat d (by simp [hd]))
        (fun d hd alt' hsel' => by
          obtain ⟨hU', hanc'⟩ := hchild d (by simp [hd]) alt' hsel'
          exact ⟨hU', by rw [hvis]; exact hanc'⟩)
        (by rw [hvis]; exact hnd)
        (by rw [hvis]; exact hsubU)
        (by rw [hvis]; exact hfuel)
      rcases this with ⟨st', hok'⟩ | ⟨c, herr', hcyc'⟩
      · exact .inl ⟨st', by rw [heq, hok]; exact hok'⟩
      · exact .inr ⟨c, by rw [heq, hok]; exact herr', hcyc'⟩
    · exact .inr ⟨c, by rw [heq, herr], hcyc⟩

theorem visit_total (env : LoadEnv) (U : List String) (ht : EnvTotal env U) :
    ∀ fuel name st, name ∈ U →
      st.visiting.Nodup → (∀ v, v ∈ st.visiting → v ∈ U) →
      (∀ v, v ∈ st.visiting → Relation.TransGen (selectedDep env) v name) →
      U.length + 1 ≤ fuel + st.visiting.length →
      OkOrCircular env (visit env fuel name st) := by
  intro fuel
  induction fuel with
  | zero =>
    intro name st _ hnd hsubU _ hfuel
    have := length_le_of_nodup_subset hnd hsubU
    omega
  | succ f ih =>
    intro name st hU hnd hsubU hanc hfuel
    by_cases hseen : st.seen.contains name
    · exact .inl ⟨st, by rw [visit, if_pos hseen]⟩
    · by_cases hvisit : st.visiting.contains name
      · exact .inr ⟨name, by rw [visit, if_neg hseen, if_pos hvisit],
          hanc name (by simpa using hvisit)⟩
      · obtain ⟨r, hr⟩ := ht.load name hU
        have hvisit' : name ∉ st.visiting := by simpa using hvisit
        have heq : visit env (f + 1) name st =
            match visitDeps env (visit env f) (r.requires.getD []) name
                { st with visiting := st.visiting ++ [name] } with
            | .error e => .error e
            | .ok st2 =>
              .ok { resolved := st2.resolved ++ [name]
                    seen := st2.seen ++ [name]
                    visiting := st2.visiting.erase name } := by
          rw [visit, if_neg hseen, if_neg hvisit, hr]
        have hdt := visitDeps_total env U ht f ih (r.requires.getD []) name
          { st with visiting := st.visiting ++ [name] }
          (ht.sat name hU r hr)
          (fun dep hdep alt hsel => by
            have hstep : selectedDep env name (jsTrim alt) := ⟨r, hr, dep, hdep, alt, hsel, rfl⟩
            refine ⟨ht.closed name hU _ hstep, ?_⟩
            intro v hv
            rcases List.mem_append.mp hv with hv' | hv'
            · exact Relation.TransGen.tail (hanc v hv') hstep
            · rw [List.mem_singleton] at hv'
              subst hv'
              exact Relation.TransGen.single hstep)
          (hnd.append (List.nodup_singleton name)
            (fun x hx hx' => by rw [List.mem_singleton] at hx'; subst hx'; exact hvisit' hx))
          (fun v hv => by
            rcases List.mem_append.mp hv with hv' | hv'
            · exact hsubU v hv'
            · rw [List.mem_singleton] at hv'; subst hv'; exact hU)
          (by simp only [List.length_append, List.length_singleton]; omega)
        rcases hdt with ⟨st2, hok⟩ | ⟨c, herr, hcyc⟩
        · exact .inl ⟨_, by rw [heq, hok]⟩
        · exact .inr ⟨c, by rw [heq, herr], hcyc⟩

theorem visitAll_total (env : LoadEnv) (U : List String) (ht : EnvTotal env U) (fuel : Nat)
    (hfuel : U.length + 1 ≤ fuel) :
    ∀ names st, (∀ n, n ∈ names → n ∈ U) → st.visiting = [] →
      OkOrCircular env (visitAll env fuel names st) := by
  intro names
  induction names with
  | nil => intro st _ _; exact .inl ⟨st, by rw [visitAll]⟩
  | cons name rest ih =>
    intro st hnames hvis
    have hv := visit_total env U ht fuel name st (hnames name (by simp))
      (by rw [hvis]; exact List.nodup_nil)
      (by rw [hvis]; intro v hv; simp at hv)
      (by rw [hvis]; intro v hv; simp at hv)
      (by rw [hvis]; simpa using hfuel)
    have heq : ∀ x, visit env fuel name st = x →
        visitAll env fuel (name :: rest) st =
          match x with
          | .error e => .error e
          | .ok st' => visitAll env fuel rest st' := by
      intro x hx
      rw [visitAll, hx]
    rcases hv with ⟨stm, hok⟩ | ⟨c, herr, hcyc⟩
    · have hvism : stm.visiting = [] := by
        rw [(visit_post env fuel name st stm hok).2.2.1, hvis]
      have := ih stm (fun n hn => hnames n (by simp [hn])) hvism
      rcases this with ⟨st', hok'⟩ | ⟨c, herr', hcyc'⟩
      · exact .inl ⟨st', by rw [heq _ hok]; exact hok'⟩
      · exact .inr ⟨c, by rw [heq _ hok]; exact herr', hcyc'⟩
    · exact .inr ⟨c, by rw [heq _ herr], hcyc⟩

/-- Under the totality hypotheses, resolution either returns an order or
fails with `CircularDependency` naming a recipe that lies on a cycle. -/
theorem resolve_total {env : LoadEnv} {U names : List String} {fuel : Nat}
    (ht : EnvTotal env U) (hnames : ∀ n, n ∈ names → n ∈ U)
    (hfuel : U.length + 1 ≤ fuel) :
    (∃ order, resolveRecipeDependencies env fuel names = .ok order) ∨
    (∃ c, resolveRecipeDependencies env fuel names = .error (.circular c) ∧
      Relation.TransGen (selectedDep env) c c) := by
  rcases visitAll_total env U ht fuel hfuel names ⟨[], [], []⟩ hnames rfl with
    ⟨st, hok⟩ | ⟨c, herr, hcyc⟩
  · exact .inl ⟨st.resolved, by rw [resolveRecipeDependencies, hok]⟩
  · exact .inr ⟨c, by rw [resolveRecipeDependencies, herr], hcyc⟩
theorem find_first_loadable (env : LoadEnv) :
    ∀ (as : List String) (avail : List (Option Recipe)) (p : String × Option Recipe),
      loadAll env as = .ok avail →
      (as.zip avail).find? (fun q => q.2.isSome) = some p →
      ∃ pre post, as = pre ++ p.1 :: post ∧
        (∀ x, x ∈ pre → env (jsTrim x) = .ok none) ∧
        ∃ rb, env (jsTrim p.1) = .ok (some rb) := by
  intro as
  induction as with
  | nil =>
    intro avail p h hf
    rw [loadAll] at h
    cases h
    simp at hf
  | cons a rest ih =>
    intro avail p h hf
    rw [loadAll] at h
    split at h
    · exact absurd h (by simp)
    · rename_i b henva
      split at h
      · exact absurd h (by simp)
      · rename_i bs hrest
        cases h
        rw [List.zip_cons_cons] at hf
        by_cases hb : b.isSome
        · rw [List.find?_cons_of_pos _ (by simpa using hb)] at hf
          cases hf
          obtain ⟨rb, hrb⟩ := Option.isSome_iff_exists.mp hb
          exact ⟨[], rest, by simp, by simp, rb, by rw [henva, hrb]⟩
        · rw [List.find?_cons_of_neg _ (by simpa using hb)] at hf
          obtain ⟨pre, post, hsplit, hpre, hrb⟩ := ih bs p hrest hf
          refine ⟨a :: pre, post, by simp [hsplit], ?_, hrb⟩
          intro x hx
          rcases List.mem_cons.mp hx with rfl | hx'
          · have hbn : b = none := Option.not_isSome_iff_eq_none.mp hb
            rw [henva, hbn]
          · exact hpre x hx'

theorem selectAlternative_first {env : LoadEnv} {dep alt : String}
    (h : selectAlternative env dep = .ok (some alt)) :
    ∃ pre post, jsSplit dep '|' = pre ++ alt :: post ∧
      (∀ x, x ∈ pre → env (jsTrim x) = .ok none) ∧
      ∃ rb, env (jsTrim alt) = .ok (some rb) := by
  rw [selectAlternative] at h
  split at h
  · exact absurd h (by simp)
  · rename_i avail hload
    have hmap : (((jsSplit dep '|').zip avail).find? (fun p => p.2.isSome)).map
        (fun p => p.1) = some alt := by
      injection h
    obtain ⟨p, hfind, hp1⟩ := Option.map_eq_some'.mp hmap
    subst hp1
    exact find_first_loadable env _ avail p hload hfind

/-- C4: for an alternation requirement, the resolver selects the first
candidate in declared order whose manifest loads, recursively visits it,
and fails with `UnsatisfiedDependency dep name` when no candidate loads. -/
theorem alternation_resolution (env : LoadEnv) (name dep : String) (recipe : Recipe)
    (fuel : Nat) (henv : env name = .ok (some recipe))
    (hreq : recipe.requires = some [dep]) :
    ((∀ alt, selectAlternative env dep = .ok (some alt) →
      ∃ pre post, jsSplit dep '|' = pre ++ alt :: post ∧
        (∀ x, x ∈ pre → env (jsTrim x) = .ok none) ∧
        ∃ rb, env (jsTrim alt) = .ok (some rb)) ∧
    (∀ alt rb, selectAlternative env dep = .ok (some alt) →
      env (jsTrim alt) = .ok (some rb) → rb.requires = none → jsTrim alt ≠ name →
      resolveRecipeDependencies env (fuel + 2) [name] = .ok [jsTrim alt, name]) ∧
    (selectAlternative env dep = .ok none →
      resolveRecipeDependencies env (fuel + 1) [name] =
        .error (.unsatisfied dep name))) := by
  refine ⟨fun alt hsel => selectAlternative_first hsel, ?_, ?_⟩
  · intro alt rb hsel hrb hreqb hne
    have h1 : visit env (fuel + 1) (jsTrim alt) ⟨[], [], [name]⟩ =
        .ok ⟨[jsTrim alt], [jsTrim alt], [name]⟩ := by
      rw [visit, if_neg (by simp), if_neg (by simp [hne]), hrb]
      dsimp only
      rw [hreqb]
      dsimp only [Option.getD]
      rw [visitDeps]
      dsimp only
      rw [List.erase_append_right _ (by simp [hne]), List.erase_cons_head]
      simp
    have h2 : visit env (fuel + 2) name ⟨[], [], []⟩ =
        .ok ⟨[jsTrim alt, name], [jsTrim alt, name], []⟩ := by
      rw [show fuel + 2 = (fuel + 1) + 1 from rfl]
      rw [visit, if_neg (by simp), if_neg (by simp), henv]
      dsimp only
      rw [hreq]
      dsimp only [Option.getD]
      rw [visitDeps, hsel]
      dsimp only [List.nil_append]
      rw [h1]
      dsimp only
      rw [visitDeps]
      dsimp only
      rw [List.erase_cons_head]
      simp
    rw [resolveRecipeDependencies, visitAll, h2]
    dsimp only
    rw [visitAll]
  · intro hsel
    have h2 : visit env (fuel + 1) name ⟨[], [], []⟩ =
        .error (.unsatisfied dep name) := by
      rw [visit, if_neg (by simp), if_neg (by simp), henv]
      dsimp only
      rw [hreq]
      dsimp only [Option.getD]
      rw [visitDeps, hsel]
    rw [resolveRecipeDependencies, visitAll, h2]

def envAlt : LoadEnv := fun n =>
  if n = "r" then .ok (some { name := "r", version := "1", requires := some ["x|y"] })
  else if n = "y" then .ok (some { name := "y", version := "1" })
  else .ok none

def envAltNone : LoadEnv := fun n =>
  if n = "r" then .ok (some { name := "r", version := "1", requires := some ["x|y"] })
  else .ok none

theorem alternation_resolution_witness :
    resolveRecipeDependencies envAlt 3 ["r"] = .ok ["y", "r"] ∧
    resolveRecipeDependencies envAltNone 2 ["r"] = .error (.unsatisfied "x|y" "r") := by
  constructor
  · have h := (alternation_resolution envAlt "r" "x|y"
        { name := "r", version := "1", requires := some ["x|y"] } 1 rfl rfl).2.1
        "y" { name := "y", version := "1" } (by decide) rfl rfl (by decide)
    have hy : jsTrim "y" = "y" := by decide
    rw [hy] at h
    exact h
  · exact (alternation_resolution envAltNone "r" "x|y"
      { name := "r", version := "1", requires := some ["x|y"] } 1 rfl rfl).2.2 (by decide)

/-- C1: for requested names whose selected-requirement graph is acyclic and
whose manifests (transitively) all load, resolution returns an order in
which every recipe appears strictly after every recipe it transitively
requires. -/
theorem resolveRecipeDependencies_topologicalOrder
    (env : LoadEnv) (U names : List String) (fuel : Nat)
    (ht : EnvTotal env U) (hnames : ∀ n, n ∈ names → n ∈ U)
    (hacyc : ∀ c, ¬ Relation.TransGen (selectedDep env) c c)
    (hfuel : U.length + 1 ≤ fuel) :
    ∃ order, resolveRecipeDependencies env fuel names = .ok order ∧
      ∀ a b, a ∈ order → Relation.TransGen (selectedDep env) a b →
        precedes order b a := by
  rcases resolve_total ht hnames hfuel with ⟨order, hok⟩ | ⟨c, _, hcyc⟩
  · refine ⟨order, hok, ?_⟩
    obtain ⟨hord, _, _⟩ := resolve_ok_props hok
    exact fun a b ha h => ordered_transGen hord a b h ha
  · exact absurd hcyc (hacyc c)

/-- A dependency chain `a` requires `b` requires `c` with all manifests
loading; used to witness the topological-order theorem. -/
def envChain : LoadEnv := fun n =>
  if n = "a" then .ok (some { name := "a", version := "1", requires := some ["b"] })
  else if n = "b" then .ok (some { name := "b", version := "1", requires := some ["c"] })
  else if n = "c" then .ok (some { name := "c", version := "1" })
  else .ok none

theorem envChain_dep {a b : String} (h : selectedDep envChain a b) :
    (a = "a" ∧ b = "b") ∨ (a = "b" ∧ b = "c") := by
  obtain ⟨r, hr, dep, hdep, alt, hsel, rfl⟩ := h
  rw [envChain] at hr
  by_cases ha : a = "a"
  · rw [if_pos ha] at hr
    cases hr
    simp only [Option.getD, List.mem_singleton] at hdep
    subst hdep
    have : selectAlternative envChain "b" = .ok (some "b") := by decide
    rw [this] at hsel
    cases hsel
    exact .inl ⟨ha, by decide⟩
  · rw [if_neg ha] at hr
    by_cases hb : a = "b"
    · rw [if_pos hb] at hr
      cases hr
      simp only [Option.getD, List.mem_singleton] at hdep
      subst hdep
      have : selectAlternative envChain "c" = .ok (some "c") := by decide
      rw [this] at hsel
      cases hsel
      exact .inr ⟨hb, by decide⟩
    · rw [if_neg hb] at hr
      by_cases hc : a = "c"
      · rw [if_pos hc] at hr
        cases hr
        simp only [Option.getD] at hdep
        simp at hdep
      · rw [if_neg hc] at hr
        exact absurd hr (by simp)

theorem envChain_acyclic : ∀ c, ¬ Relation.TransGen (selectedDep envChain) c c := by
  have hstep : ∀ a b, Relation.TransGen (selectedDep envChain) a b →
      (a = "a" ∧ (b = "b" ∨ b = "c")) ∨ (a = "b" ∧ b = "c") := by
    intro a b h
    induction h with
    | single h' =>
      rcases envChain_dep h' with ⟨ha, hb⟩ | ⟨ha, hb⟩
      · exact .inl ⟨ha, .inl hb⟩
      · exact .inr ⟨ha, hb⟩
    | tail _ h' ih =>
      rcases envChain_dep h' with ⟨hm, hb⟩ | ⟨hm, hb⟩
      · rcases ih with ⟨ha, hm'⟩ | ⟨ha, hm'⟩
        · subst hm
          rcases hm' with hm' | hm' <;> simp at hm'
        · subst hm
          simp at hm'
      · rcases ih with ⟨ha, hm'⟩ | ⟨ha, hm'⟩
        · exact .inl ⟨ha, .inr hb⟩
        · subst hm
          simp at hm'
  intro c h
  rcases hstep c c h with ⟨ha, hb | hb⟩ | ⟨ha, hb⟩ <;> subst ha <;> simp at hb

theorem envChain_total : EnvTotal envChain ["a", "b", "c"] := by
  refine ⟨?_, ?_, ?_⟩
  · intro a ha
    simp only [List.mem_cons, List.mem_singleton] at ha
    rcases ha with rfl | rfl | rfl | h
    · exact ⟨_, rfl⟩
    · exact ⟨_, rfl⟩
    · exact ⟨_, rfl⟩
    · simp at h
  · intro a ha r hr dep hdep
    simp only [List.mem_cons, List.mem_singleton] at ha
    rcases ha with rfl | rfl | rfl | h
    · have : envChain "a" = .ok (some { name := "a", version := "1", requires := some ["b"] }) := rfl
      rw [this] at hr
      cases hr
      simp only [Option.getD, List.mem_singleton] at hdep
      subst hdep
      exact ⟨"b", by decide⟩
    · have : envChain "b" = .ok (some { name := "b", version := "1", requires := some ["c"] }) := rfl
      rw [this] at hr
      cases hr
      simp only [Option.getD, List.mem_singleton] at hdep
      subst hdep
      exact ⟨"c", by decide⟩
    · have : envChain "c" = .ok (some { name := "c", version := "1" }) := rfl
      rw [this] at hr
      cases hr
      simp only [Option.getD] at hdep
      simp at hdep
    · simp at h
  · intro a _ b hdep
    rcases envChain_dep hdep with ⟨_, rfl⟩ | ⟨_, rfl⟩ <;> simp

theorem resolveRecipeDependencies_topologicalOrder_witness :
    ∃ order, resolveRecipeDependencies envChain 4 ["a"] = .ok order ∧
      ∀ a b, a ∈ order → Relation.TransGen (selectedDep envChain) a b →
        precedes order b a :=
  resolveRecipeDependencies_topologicalOrder envChain ["a", "b", "c"] ["a"] 4
    envChain_total (by intro n hn; simp at hn; simp [hn]) envChain_acyclic (by simp)

/-- C3 (amended): when a requirement cycle is reachable from the requested
names, resolution never returns an order; and when additionally every
transitively relevant manifest loads and every requirement is satisfiable
(so no other failure preempts the traversal), it fails with
`CircularDependency` naming a recipe that lies on a cycle. -/
theorem resolveRecipeDependencies_cyclic
    (env : LoadEnv) (U names : List String) (fuel : Nat) (n c : String)
    (hn : n ∈ names)
    (hreach : Relation.ReflTransGen (selectedDep env) n c)
    (hcyc : Relation.TransGen (selectedDep env) c c) :
    (∀ fuel' order, resolveRecipeDependencies env fuel' names ≠ .ok order) ∧
    (EnvTotal env U → (∀ m, m ∈ names → m ∈ U) → U.length + 1 ≤ fuel →
      ∃ d, resolveRecipeDependencies env fuel names = .error (.circular d) ∧
        Relation.TransGen (selectedDep env) d d) := by
  refine ⟨resolve_cyclic_never_ok hn hreach hcyc, ?_⟩
  intro ht hnames hfuel
  rcases resolve_total ht hnames hfuel with ⟨order, hok⟩ | ⟨d, herr, hdcyc⟩
  · exact absurd hok (resolve_cyclic_never_ok hn hreach hcyc fuel order)
  · exact ⟨d, herr, hdcyc⟩

/-- A two-recipe requirement cycle `a → b → a` with both manifests loading. -/
def envCycle : LoadEnv := fun n =>
  if n = "a" then .ok (some { name := "a", version := "1", requires := some ["b"] })
  else if n = "b" then .ok (some { name := "b", version := "1", requires := some ["a"] })
  else .ok none

theorem envCycle_step_ab : selectedDep envCycle "a" "b" :=
  ⟨{ name := "a", version := "1", requires := some ["b"] }, rfl,
    "b", by simp [Option.getD], "b", by decide, by decide⟩

theorem envCycle_step_ba : selectedDep envCycle "b" "a" :=
  ⟨{ name := "b", version := "1", requires := some ["a"] }, rfl,
    "a", by simp [Option.getD], "a", by decide, by decide⟩

theorem envCycle_cycle : Relation.TransGen (selectedDep envCycle) "a" "a" :=
  Relation.TransGen.tail (Relation.TransGen.single envCycle_step_ab) envCycle_step_ba

theorem envCycle_dep {a b : String} (h : selectedDep envCycle a b) :
    (a = "a" ∧ b = "b") ∨ (a = "b" ∧ b = "a") := by
  obtain ⟨r, hr, dep, hdep, alt, hsel, rfl⟩ := h
  rw [envCycle] at hr
  by_cases ha : a = "a"
  · rw [if_pos ha] at hr
    cases hr
    simp only [Option.getD, List.mem_singleton] at hdep
    subst hdep
    have : selectAlternative envCycle "b" = .ok (some "b") := by decide
    rw [this] at hsel
    cases hsel
    exact .inl ⟨ha, by decide⟩
  · rw [if_neg ha] at hr
    by_cases hb : a = "b"
    · rw [if_pos hb] at hr
      cases hr
      simp only [Option.getD, List.mem_singleton] at hdep
      subst hdep
      have : selectAlternative envCycle "a" = .ok (some "a") := by decide
      rw [this] at hsel
      cases hsel
      exact .inr ⟨hb, by decide⟩
    · rw [if_neg hb] at hr
      exact absurd hr (by simp)

theorem envCycle_total : EnvTotal envCycle ["a", "b"] := by
  refine ⟨?_, ?_, ?_⟩
  · intro a ha
    simp only [List.mem_cons, List.mem_singleton] at ha
    rcases ha with rfl | rfl | h
    · exact ⟨_, rfl⟩
    · exact ⟨_, rfl⟩
    · simp at h
  · intro a ha r hr dep hdep
    simp only [List.mem_cons, List.mem_singleton] at ha
    rcases ha with rfl | rfl | h
    · have : envCycle "a" = .ok (some { name := "a", version := "1", requires := some ["b"] }) := rfl
      rw [this] at hr
      cases hr
      simp only [Option.getD, List.mem_singleton] at hdep
      subst hdep
      exact ⟨"b", by decide⟩
    · have : envCycle "b" = .ok (some { name := "b", version := "1", requires := some ["a"] }) := rfl
      rw [this] at hr
      cases hr
      simp only [Option.getD, List.mem_singleton] at hdep
      subst hdep
      exact ⟨"a", by decide⟩
    · simp at h
  · intro a _ b hdep
    rcases envCycle_dep hdep with ⟨_, rfl⟩ | ⟨_, rfl⟩ <;> simp

theorem resolveRecipeDependencies_cyclic_witness :
    (∀ fuel' order, resolveRecipeDependencies envCycle fuel' ["a"] ≠ .ok order) ∧
    (∃ d, resolveRecipeDependencies envCycle 3 ["a"] = .error (.circular d) ∧
      Relation.TransGen (selectedDep envCycle) d d) := by
  have h := resolveRecipeDependencies_cyclic envCycle ["a", "b"] ["a"] 3 "a" "a"
    (by simp) Relation.ReflTransGen.refl envCycle_cycle
  exact ⟨h.1, h.2 envCycle_total (by intro m hm; simp at hm; simp [hm]) (by simp)⟩

/-- A requirement cycle `a → a` reachable from the requested names, together
with a requested name `x` that does not load and is visited first. -/
def envCyclePreempt : LoadEnv := fun n =>
  if n = "a" then .ok (some { name := "a", version := "1", requires := some ["a"] })
  else .ok none

/-- C3 counterexample: the requirement graph reachable from the requested
names `["x", "a"]` contains the cycle `a → a`, yet resolution fails with
`RecipeNotFound "x"`, not with a `CircularDependency` error. -/
theorem resolveRecipeDependencies_cyclic_counterexample :
    "a" ∈ ["x", "a"] ∧
    Relation.TransGen (selectedDep envCyclePreempt) "a" "a" ∧
    resolveRecipeDependencies envCyclePreempt 5 ["x", "a"] =
      .error (.notFound "x") := by
  refine ⟨by simp, Relation.TransGen.single ?_, by decide⟩
  exact ⟨{ name := "a", version := "1", requires := some ["a"] }, rfl,
    "a", by simp [Option.getD], "a", by decide, by decide⟩

/-! ## Generation engine (src/lib/executor.ts)

The filesystem is a map from paths to file contents; Handlebars rendering
and JSON parsing are oracle parameters (deterministic external functions).
`mkdir -p` has no effect in this model, which tracks files only. -/

/-- Filesystem model: path → file content. -/
abbrev FS := String → Option String

/-- `Bun.write`: create or fully overwrite the file at `path`. -/
def writeFile (fs : FS) (path content : String) : FS :=
  fun q => if q = path then some content else fs q

/-- Handlebars rendering oracle: template source and context to output. -/
abbrev Render := String → JObj → String

/-- Failures of a generation rule (thrown errors in executor.ts). -/
inductive GenErr where
  | missingTemplate (path : String)
  | invalidMergeTarget (path : String)
deriving DecidableEq, Inhabited

/-- The `ExecuteContext` of executor.ts (the `ctx : Context` logging field
is omitted: it only gates `console.log`). -/
structure ExecuteContext where
  recipe : Recipe
  workspaceRoot : String
  targetDir : String
  recipePath : String
  projectName : String
  «variables» : VarMap

/-- The rendering context built by `applyTemplate` (executor.ts 231-236):
`{ ...variables, project_name, recipe_name, timestamp }`. -/
def templateContext (vars : VarMap) (projectName : String) (recipe : Recipe)
    (now : String) : JObj :=
  setKey (setKey (setKey vars "project_name" (.str projectName))
    "recipe_name" (.str recipe.name)) "timestamp" (.str now)

/-- The rendering context built by `applyContent` and `applyAppend`:
`{ ...variables, project_name, recipe_name }` — no timestamp. -/
def contentContext (vars : VarMap) (projectName : String) (recipe : Recipe) : JObj :=
  setKey (setKey vars "project_name" (.str projectName)) "recipe_name" (.str recipe.name)

/-- `applyTemplate`: load the template relative to the recipe directory
(throw if absent), render it, and fully overwrite the target. -/
def applyTemplate (render : Render) (now : String) (rule : GenerateRule)
    (targetPath : String) (ctx : ExecuteContext) (fs : FS) : Except GenErr FS :=
  match fs (pathJoin ctx.recipePath (rule.template.getD "")) with
  | none => .error (.missingTemplate (pathJoin ctx.recipePath (rule.template.getD "")))
  | some templateContent =>
    .ok (writeFile fs targetPath
      (render templateContent
        (templateContext ctx.variables ctx.projectName ctx.recipe now)))

/-- `applyContent`: render the inline string and fully overwrite the target. -/
def applyContent (render : Render) (rule : GenerateRule) (targetPath : String)
    (ctx : ExecuteContext) (fs : FS) : FS :=
  writeFile fs targetPath
    (render (rule.content.getD "")
      (contentContext ctx.variables ctx.projectName ctx.recipe))

/-- `applyAppend`: read the existing content (empty if absent), render the
append text, skip when the trimmed rendered text is already included
(`existing.includes(toAppend.trim())`), else write `existing + toAppend`. -/
def applyAppend (render : Render) (rule : GenerateRule) (targetPath : String)
    (ctx : ExecuteContext) (fs : FS) : FS :=
  let existing := (fs targetPath).getD ""
  let toAppend := render (rule.append.getD "")
    (contentContext ctx.variables ctx.projectName ctx.recipe)
  if jsIncludes existing (jsTrim toAppend) then fs
  else writeFile fs targetPath (existing ++ toAppend)

mutual
/-- `deepMerge` of executor.ts: `result = {...target}`, then for each source
key in order: when both the source value and the current result value are
non-array objects (JS `null` has `typeof "object"` but is falsy, hence is
never merged recursively), merge recursively; otherwise the source value
replaces the result value. -/
def deepMerge : JObj → JObj → JObj
  | target, [] => target
  | target, (k, sv) :: rest =>
    deepMerge (setKey target k (mergeEntry (lookupKey k target) sv)) rest

/-- The per-key decision of `deepMerge`: recurse when both the current
result value and the source value are non-array objects, else replace. -/
def mergeEntry : Option JValue → JValue → JValue
  | some (.obj tgtObj), .obj srcObj => .obj (deepMerge tgtObj srcObj)
  | _, sv => sv
end

/-- Indentation (`2 * depth` spaces) used by `JSON.stringify(v, null, 2)`. -/
def jsonSpaces : Nat → String
  | 0 => ""
  | n + 1 => jsonSpaces n ++ " "

/-- Escaping of one character inside a JSON string literal (model of the JS
builtin restricted to the common control characters). -/
def escapeJsonChar (c : Char) : String :=
  if c = '"' then "\\\""
  else if c = '\\' then "\\\\"
  else if c = '\n' then "\\n"
  else if c = '\t' then "\\t"
  else if c = '\r' then "\\r"
  else String.singleton c

def escapeJson (s : String) : String :=
  String.join (s.data.map escapeJsonChar)

mutual
/-- `JSON.stringify(·, null, 2)` on a value at the given indentation depth. -/
def stringifyVal : Nat → JValue → String
  | _, .str s => "\"" ++ escapeJson s ++ "\""
  | _, .num n => toString n
  | _, .bool b => if b then "true" else "false"
  | _, .null => "null"
  | _, .arr [] => "[]"
  | ind, .arr (x :: xs) =>
    "[\n" ++ stringifyArrItems (ind + 2) (x :: xs) ++ "\n" ++ jsonSpaces ind ++ "]"
  | _, .obj [] => "\x7b\x7d"
  | ind, .obj (f :: fs) =>
    "\x7b\n" ++ stringifyObjItems (ind + 2) (f :: fs) ++ "\n" ++ jsonSpaces ind ++ "\x7d"

def stringifyArrItems : Nat → List JValue → String
  | _, [] => ""
  | ind, [x] => jsonSpaces ind ++ stringifyVal ind x
  | ind, x :: y :: xs =>
    jsonSpaces ind ++ stringifyVal ind x ++ ",\n" ++ stringifyArrItems ind (y :: xs)

def stringifyObjItems : Nat → List (String × JValue) → String
  | _, [] => ""
  | ind, [(k, v)] =>
    jsonSpaces ind ++ "\"" ++ escapeJson k ++ "\": " ++ stringifyVal ind v
  | ind, (k, v) :: f :: fs =>
    jsonSpaces ind ++ "\"" ++ escapeJson k ++ "\": " ++ stringifyVal ind v ++ ",\n" ++
      stringifyObjItems ind (f :: fs)
end

/-- `JSON.stringify(merged, null, 2)` (model of the JS builtin; numbers are
integers and only common control characters are escaped). -/
def jsonStringify (v : JValue) : String := stringifyVal 0 v

/-- `applyMerge`: parse the existing target (`{}` if the file is absent; a
parse failure propagates — `InvalidMergeTarget`), deep-merge the rule's
payload into it and write it back 2-space-indented with a trailing
newline. -/
def applyMerge (parseJson : String → Option JObj) (rule : GenerateRule)
    (targetPath : String) (fs : FS) : Except GenErr FS :=
  match fs targetPath with
  | none =>
    .ok (writeFile fs targetPath
      (jsonStringify (.obj (deepMerge [] (rule.merge.getD []))) ++ "\n"))
  | some content =>
    match parseJson content with
    | none => .error (.invalidMergeTarget targetPath)
    | some existing =>
      .ok (writeFile fs targetPath
        (jsonStringify (.obj (deepMerge existing (rule.merge.getD []))) ++ "\n"))

/-- The `when` gate of `applyGeneration` (executor.ts 161-180): skip when a
truthy `file_exists` names an absent file, or a truthy `file_not_exists`
names an existing file. -/
def whenSkips (w : Option WhenCond) (targetDir : String) (fs : FS) : Bool :=
  match w with
  | none => false
  | some w =>
    (truthyOptStr w.file_exists &&
      (fs (pathJoin targetDir (w.file_exists.getD ""))).isNone) ||
    (truthyOptStr w.file_not_exists &&
      (fs (pathJoin targetDir (w.file_not_exists.getD ""))).isSome)

/-- `applyGeneration`: evaluate the `when` gate, then the overwrite policy
(`exists && rule.overwrite === false && !rule.append && !rule.merge`),
then dispatch on the rule kind (`rule.template` truthy /
`rule.content !== undefined` / `rule.append` truthy / `rule.merge`
truthy — an object field is truthy whenever present). -/
def applyGeneration (render : Render) (parseJson : String → Option JObj)
    (now : String) (rule : GenerateRule) (ctx : ExecuteContext) (fs : FS) :
    Except GenErr FS :=
  if whenSkips rule.when ctx.targetDir fs then .ok fs
  else if (fs (pathJoin ctx.targetDir rule.path)).isSome ∧ rule.overwrite = some false ∧
      truthyOptStr rule.append = false ∧ rule.merge.isSome = false then .ok fs
  else
    -- `mkdir -p dirname(targetPath)`: directory creation has no effect in
    -- the file-content model
    if truthyOptStr rule.template then
      applyTemplate render now rule (pathJoin ctx.targetDir rule.path) ctx fs
    else if rule.content.isSome then
      .ok (applyContent render rule (pathJoin ctx.targetDir rule.path) ctx fs)
    else if truthyOptStr rule.append then
      .ok (applyAppend render rule (pathJoin ctx.targetDir rule.path) ctx fs)
    else if rule.merge.isSome then
      applyMerge parseJson rule (pathJoin ctx.targetDir rule.path) fs
    else .ok fs

theorem lookupKey_setKey_self {α : Type} (m : List (String × α)) (k : String) (v : α) :
    lookupKey k (setKey m k v) = some v := by
  induction m with
  | nil => simp [setKey, lookupKey]
  | cons p rest ih =>
    obtain ⟨k', v'⟩ := p
    rw [setKey]
    by_cases h : k' = k
    · rw [if_pos h, lookupKey, if_pos h]
    · rw [if_neg h, lookupKey, if_neg h]
      exact ih

theorem lookupKey_setKey_ne {α : Type} (m : List (String × α)) {k k' : String} (v : α)
    (h : k' ≠ k) : lookupKey k (setKey m k' v) = lookupKey k m := by
  induction m with
  | nil => simp [setKey, lookupKey, h]
  | cons p rest ih =>
    obtain ⟨k0, v0⟩ := p
    rw [setKey]
    by_cases h0 : k0 = k'
    · have hk : k0 ≠ k := by rw [h0]; exact h
      rw [if_pos h0, lookupKey, lookupKey, if_neg hk, if_neg hk]
    · rw [if_neg h0, lookupKey, lookupKey]
      by_cases h1 : k0 = k
      · rw [if_pos h1, if_pos h1]
      · rw [if_neg h1, if_neg h1]
        exact ih

/-- C9: a rule whose target already exists, with `overwrite: false`, that is
neither an append nor a merge rule, is skipped: the filesystem (in
particular the existing target content) is unchanged. -/
theorem applyGeneration_overwrite_false_skips (render : Render)
    (parseJson : String → Option JObj) (now : String) (rule : GenerateRule)
    (ctx : ExecuteContext) (fs : FS)
    (hexists : (fs (pathJoin ctx.targetDir rule.path)).isSome)
    (hover : rule.overwrite = some false)
    (happend : truthyOptStr rule.append = false)
    (hmerge : rule.merge.isSome = false) :
    applyGeneration render parseJson now rule ctx fs = .ok fs := by
  rw [applyGeneration]
  by_cases hw : whenSkips rule.when ctx.targetDir fs
  · rw [if_pos hw]
  · rw [if_neg hw, if_pos ⟨hexists, hover, happend, hmerge⟩]

def fsC9 : FS := fun p => if p = "work/notes.txt" then some "existing content" else none

def ruleC9 : GenerateRule :=
  { path := "notes.txt", content := some "new content", overwrite := some false }

def ctxC9 : ExecuteContext :=
  { recipe := { name := "demo", version := "1.0" }, workspaceRoot := "ws",
    targetDir := "work", recipePath := "rp", projectName := "proj", «variables» := [] }

theorem applyGeneration_overwrite_false_skips_witness :
    applyGeneration (fun s _ => s) (fun _ => none) "now" ruleC9 ctxC9 fsC9 = .ok fsC9 :=
  applyGeneration_overwrite_false_skips _ _ _ _ _ _ (by decide) rfl rfl rfl

/-- C5 (amended): the rendering context of a template rule is the effective
variables overridden by exactly `project_name`, `recipe_name` and the
generation timestamp (under the key `timestamp`); `recipe_version` is not
part of the context.  The rendered output fully overwrites the target:
the produced file content is the rendered text regardless of any previous
content, and no other path changes. -/
theorem applyTemplate_context (render : Render) (now : String) (rule : GenerateRule)
    (targetPath : String) (ctx : ExecuteContext) (fs : FS) (tmpl : String)
    (htmpl : fs (pathJoin ctx.recipePath (rule.template.getD "")) = some tmpl) :
    (∀ k, lookupKey k (templateContext ctx.variables ctx.projectName ctx.recipe now) =
      if k = "timestamp" then some (.str now)
      else if k = "recipe_name" then some (.str ctx.recipe.name)
      else if k = "project_name" then some (.str ctx.projectName)
      else lookupKey k ctx.variables) ∧
    ∃ fs', applyTemplate render now rule targetPath ctx fs = .ok fs' ∧
      fs' targetPath = some (render tmpl
        (templateContext ctx.variables ctx.projectName ctx.recipe now)) ∧
      ∀ q, q ≠ targetPath → fs' q = fs q := by
  constructor
  · intro k
    rw [templateContext]
    by_cases h1 : k = "timestamp"
    · rw [if_pos h1, h1, lookupKey_setKey_self]
    · rw [if_neg h1, lookupKey_setKey_ne _ _ (fun h => h1 h.symm)]
      by_cases h2 : k = "recipe_name"
      · rw [if_pos h2, h2, lookupKey_setKey_self]
      · rw [if_neg h2, lookupKey_setKey_ne _ _ (fun h => h2 h.symm)]
        by_cases h3 : k = "project_name"
        · rw [if_pos h3, h3, lookupKey_setKey_self]
        · rw [if_neg h3, lookupKey_setKey_ne _ _ (fun h => h3 h.symm)]
  · refine ⟨_, by rw [applyTemplate, htmpl], ?_, ?_⟩
    · rw [writeFile, if_pos rfl]
    · intro q hq
      rw [writeFile, if_neg hq]

/-- The recipe used in the context counterexample. -/
def recipeC5 : Recipe := { name := "demo-recipe", version := "2.3.4" }

/-- C5 counterexample: the context built by `applyTemplate` has no
`recipe_version` entry (and no entry at all holding the version string),
although it does carry the sibling keys the specification lists. -/
theorem templateContext_no_recipe_version :
    lookupKey "recipe_version" (templateContext [] "demo" recipeC5 "t0") = none ∧
    lookupKey "recipe_name" (templateContext [] "demo" recipeC5 "t0") =
      some (.str "demo-recipe") ∧
    lookupKey "timestamp" (templateContext [] "demo" recipeC5 "t0") = some (.str "t0") ∧
    lookupKey "project_name" (templateContext [] "demo" recipeC5 "t0") =
      some (.str "demo") ∧
    (∀ k, lookupKey k (templateContext [] "demo" recipeC5 "t0") ≠
      some (.str recipeC5.version)) := by
  refine ⟨rfl, rfl, rfl, rfl, ?_⟩
  intro k
  rw [templateContext, recipeC5]
  by_cases h1 : k = "timestamp"
  · rw [h1, lookupKey_setKey_self]
    simp
  · rw [lookupKey_setKey_ne _ _ (fun h => h1 h.symm)]
    by_cases h2 : k = "recipe_name"
    · rw [h2, lookupKey_setKey_self]
      simp
    · rw [lookupKey_setKey_ne _ _ (fun h => h2 h.symm)]
      by_cases h3 : k = "project_name"
      · rw [h3, lookupKey_setKey_self]
        simp
      · rw [lookupKey_setKey_ne _ _ (fun h => h3 h.symm)]
        rw [lookupKey]
        simp

def fsC5 : FS := fun p => if p = "rp/tpl.hbs" then some "T" else none

theorem applyTemplate_context_witness :
    (∀ k, lookupKey k (templateContext [] "proj" recipeC5 "t0") =
      if k = "timestamp" then some (.str "t0")
      else if k = "recipe_name" then some (.str recipeC5.name)
      else if k = "project_name" then some (.str "proj")
      else lookupKey k ([] : VarMap)) ∧
    ∃ fs', applyTemplate (fun s _ => s) "t0" { path := "out.txt", template := some "tpl.hbs" }
        "work/out.txt"
        { recipe := recipeC5, workspaceRoot := "ws", targetDir := "work",
          recipePath := "rp", projectName := "proj", «variables» := [] } fsC5 = .ok fs' ∧
      fs' "work/out.txt" = some ((fun (s : String) (_ : JObj) => s) "T"
        (templateContext [] "proj" recipeC5 "t0")) ∧
      ∀ q, q ≠ "work/out.txt" → fs' q = fsC5 q :=
  applyTemplate_context (fun s _ => s) "t0" { path := "out.txt", template := some "tpl.hbs" }
    "work/out.txt"
    { recipe := recipeC5, workspaceRoot := "ws", targetDir := "work",
      recipePath := "rp", projectName := "proj", «variables» := [] } fsC5 "T" rfl

theorem startsWithList_append (mid post : List Char) :
    startsWithList (mid ++ post) mid = true := by
  induction mid with
  | nil => rw [List.nil_append]; cases post <;> rfl
  | cons c cs ih => simp [startsWithList, ih]

theorem containsSubList_nilPat (l : List Char) : containsSubList l [] = true := by
  cases l <;> rfl

theorem containsSubList_parts (pre mid post : List Char) :
    containsSubList (pre ++ (mid ++ post)) mid = true := by
  induction pre with
  | nil =>
    rw [List.nil_append]
    cases mid with
    | nil => exact containsSubList_nilPat _
    | cons m ms =>
      rw [List.cons_append, containsSubList, ← List.cons_append,
        startsWithList_append (m :: ms) post]
      rfl
  | cons p ps ih =>
    rw [List.cons_append, containsSubList, ih, Bool.or_true]

theorem dropWhile_decomp (p : Char → Bool) (l : List Char) :
    ∃ pre, l = pre ++ l.dropWhile p := by
  induction l with
  | nil => exact ⟨[], rfl⟩
  | cons c cs ih =>
    rw [List.dropWhile_cons]
    by_cases h : p c
    · obtain ⟨pre, hpre⟩ := ih
      exact ⟨c :: pre, by rw [if_pos h, List.cons_append, ← hpre]⟩
    · exact ⟨[], by rw [if_neg h, List.nil_append]⟩

theorem jsTrim_decomp (s : String) :
    ∃ pre post, s.data = pre ++ (jsTrim s).data ++ post := by
  obtain ⟨pre, hpre⟩ := dropWhile_decomp isJsWs s.data
  obtain ⟨pre2, hpre2⟩ := dropWhile_decomp isJsWs (s.data.dropWhile isJsWs).reverse
  refine ⟨pre, pre2.reverse, ?_⟩
  have h1 : s.data.dropWhile isJsWs =
      ((s.data.dropWhile isJsWs).reverse.dropWhile isJsWs).reverse ++ pre2.reverse := by
    conv_lhs => rw [← List.reverse_reverse (s.data.dropWhile isJsWs), hpre2]
    rw [List.reverse_append]
  calc s.data = pre ++ s.data.dropWhile isJsWs := hpre
    _ = pre ++ (((s.data.dropWhile isJsWs).reverse.dropWhile isJsWs).reverse ++ pre2.reverse) := by
        rw [← h1]
    _ = pre ++ (jsTrim s).data ++ pre2.reverse := by
        rw [jsTrim, jsTrimList]
        rw [List.append_assoc]

theorem jsIncludes_append_self (e t : String) :
    jsIncludes (e ++ t) (jsTrim t) = true := by
  obtain ⟨pre, post, hdec⟩ := jsTrim_decomp t
  rw [jsIncludes]
  have hdata : (e ++ t).data = e.data ++ t.data := by
    rw [String.data_append]
  rw [hdata, hdec]
  rw [show e.data ++ (pre ++ (jsTrim t).data ++ post) =
    (e.data ++ pre) ++ ((jsTrim t).data ++ post) by simp [List.append_assoc]]
  exact containsSubList_parts _ _ _

/-- C8 (amended): a second application of the same append rule writes
nothing — re-application is the identity — and after any application the
rendered (trimmed) append text occurs at least once in the target (not
necessarily exactly once). -/
theorem applyAppend_idempotent (render : Render) (rule : GenerateRule)
    (targetPath : String) (ctx : ExecuteContext) (fs : FS) :
    applyAppend render rule targetPath ctx (applyAppend render rule targetPath ctx fs) =
      applyAppend render rule targetPath ctx fs ∧
    jsIncludes ((applyAppend render rule targetPath ctx fs targetPath).getD "")
      (jsTrim (render (rule.append.getD "")
        (contentContext ctx.variables ctx.projectName ctx.recipe))) = true := by
  have e1 : ∀ g : FS, applyAppend render rule targetPath ctx g =
      if jsIncludes ((g targetPath).getD "")
          (jsTrim (render (rule.append.getD "")
            (contentContext ctx.variables ctx.projectName ctx.recipe))) then g
      else writeFile g targetPath (((g targetPath).getD "") ++
        render (rule.append.getD "")
          (contentContext ctx.variables ctx.projectName ctx.recipe)) :=
    fun g => rfl
  by_cases h : jsIncludes ((fs targetPath).getD "")
      (jsTrim (render (rule.append.getD "")
        (contentContext ctx.variables ctx.projectName ctx.recipe)))
  · constructor
    · rw [e1 fs, if_pos h, e1 fs, if_pos h]
    · rw [e1 fs, if_pos h]
      exact h
  · have hw : applyAppend render rule targetPath ctx fs =
        writeFile fs targetPath (((fs targetPath).getD "") ++
          render (rule.append.getD "")
            (contentContext ctx.variables ctx.projectName ctx.recipe)) := by
      rw [e1 fs, if_neg h]
    have hat : (applyAppend render rule targetPath ctx fs targetPath).getD "" =
        ((fs targetPath).getD "") ++
          render (rule.append.getD "")
            (contentContext ctx.variables ctx.projectName ctx.recipe) := by
      rw [hw, writeFile, if_pos rfl]
      rfl
    have hinc := jsIncludes_append_self ((fs targetPath).getD "")
      (render (rule.append.getD "")
        (contentContext ctx.variables ctx.projectName ctx.recipe))
    constructor
    · rw [e1 (applyAppend render rule targetPath ctx fs), hat, if_pos hinc]
    · rw [hat]
      exact hinc

def renderId : Render := fun s _ => s

def ruleC8 : GenerateRule := { path := "f.txt", append := some "aba" }

def ctxC8 : ExecuteContext :=
  { recipe := { name := "demo", version := "1.0" }, workspaceRoot := "ws",
    targetDir := "t", recipePath := "rp", projectName := "proj", «variables» := [] }

def fsC8 : FS := fun p => if p = "t/f.txt" then some "ab" else none

/-- C8 counterexample: appending `"aba"` to a file containing `"ab"` writes
`"ababa"`; the second application correctly writes nothing, but the
appended (trimmed) text then occurs twice in the target, not exactly
once. -/
theorem applyAppend_counterexample :
    (applyAppend renderId ruleC8 "t/f.txt" ctxC8 fsC8) "t/f.txt" = some "ababa" ∧
    applyAppend renderId ruleC8 "t/f.txt" ctxC8
        (applyAppend renderId ruleC8 "t/f.txt" ctxC8 fsC8) =
      applyAppend renderId ruleC8 "t/f.txt" ctxC8 fsC8 ∧
    countOcc "ababa" (jsTrim "aba") = 2 ∧
    ¬ countOcc "ababa" (jsTrim "aba") = 1 :=
  ⟨rfl, rfl, by decide, by decide⟩

theorem lookupKey_eq_none_of_not_mem {α : Type} {k : String} :
    ∀ {m : List (String × α)}, k ∉ m.map Prod.fst → lookupKey k m = none := by
  intro m
  induction m with
  | nil => intro _; rfl
  | cons p rest ih =>
    intro h
    rw [List.map_cons, List.mem_cons] at h
    push_neg at h
    rw [lookupKey, if_neg (fun hq => h.1 hq.symm)]
    exact ih h.2

theorem setKey_append_of_absent {α : Type} {k : String} (v : α) :
    ∀ {m : List (String × α)}, lookupKey k m = none → setKey m k v = m ++ [(k, v)] := by
  intro m
  induction m with
  | nil => intro _; rfl
  | cons p rest ih =>
    intro h
    obtain ⟨k0, v0⟩ := p
    rw [lookupKey] at h
    rw [setKey]
    by_cases h0 : k0 = k
    · rw [if_pos h0] at h
      exact absurd h (by simp)
    · rw [if_neg h0] at h
      rw [if_neg h0, List.cons_append, ih h]

theorem lookupKey_append {α : Type} (k : String) (a b : List (String × α)) :
    lookupKey k (a ++ b) =
      match lookupKey k a with
      | some v => some v
      | none => lookupKey k b := by
  induction a with
  | nil => rw [List.nil_append]; rfl
  | cons p rest ih =>
    obtain ⟨k0, v0⟩ := p
    rw [List.cons_append, lookupKey, lookupKey]
    by_cases h0 : k0 = k
    · rw [if_pos h0, if_pos h0]
    · rw [if_neg h0, if_neg h0]
      exact ih

/-- Merging a source object whose top-level keys are fresh for the target
appends it verbatim: every value is copied, none is merged recursively. -/
theorem deepMerge_fresh :
    ∀ (source target : JObj), (source.map Prod.fst).Nodup →
      (∀ p, p ∈ source → lookupKey p.1 target = none) →
      deepMerge target source = target ++ source := by
  intro source
  induction source with
  | nil => intro target _ _; rw [deepMerge, List.append_nil]
  | cons p rest ih =>
    intro target hnd hfresh
    obtain ⟨k, sv⟩ := p
    rw [List.map_cons, List.nodup_cons] at hnd
    have hk : lookupKey k target = none := hfresh (k, sv) (by simp)
    rw [deepMerge]
    have hval : mergeEntry (lookupKey k target) sv = sv := by
      rw [hk]
      cases sv <;> rfl
    rw [hval, setKey_append_of_absent sv hk]
    rw [ih (target ++ [(k, sv)]) hnd.2 ?fresh]
    · rw [List.append_assoc]
      rfl
    case fresh =>
      intro q hq
      rw [lookupKey_append]
      rw [hfresh q (by simp [hq])]
      rw [lookupKey, if_neg ?ne]
      · rfl
      · intro hkq
        exact hnd.1 (hkq ▸ (List.mem_map.mpr ⟨q, hq, rfl⟩))

/-- C10: a merge rule whose target does not yet exist does not fail — the
existing document is taken to be `{}` — and the written content is the
payload alone, serialized as 2-space-indented JSON with a trailing
newline. -/
theorem applyMerge_missing_target (parseJson : String → Option JObj)
    (rule : GenerateRule) (targetPath : String) (fs : FS) (payload : JObj)
    (hmiss : fs targetPath = none)
    (hpayload : rule.merge = some payload)
    (hnodup : (payload.map Prod.fst).Nodup) :
    applyMerge parseJson rule targetPath fs =
      .ok (writeFile fs targetPath (jsonStringify (.obj payload) ++ "\n")) := by
  rw [applyMerge, hmiss, hpayload]
  have : deepMerge [] payload = payload := by
    rw [deepMerge_fresh payload [] hnodup (fun p _ => rfl), List.nil_append]
  rw [show (some payload).getD [] = payload from rfl, this]

def payloadC10 : JObj := [("scripts", .obj [("test", .str "x")])]

def ruleC10 : GenerateRule := { path := "package.json", merge := some payloadC10 }

def fsC10 : FS := fun _ => none

theorem applyMerge_missing_target_witness :
    applyMerge (fun _ => none) ruleC10 "work/package.json" fsC10 =
      .ok (writeFile fsC10 "work/package.json"
        (jsonStringify (.obj payloadC10) ++ "\n")) :=
  applyMerge_missing_target (fun _ => none) ruleC10 "work/package.json" fsC10
    payloadC10 rfl rfl (by decide)

/-! ## Stack defaults at `add` time (src/commands/add.ts, stack branch) -/

/-- Applying a stack's `defaults` when the stack is added (add.ts 135-143):
for each recipe name in the stack's defaults map,
`config.variables[recipeName] = { ...config.variables[recipeName], ...vars }`
— the spread of the stack's `vars` comes second. -/
def applyStackDefaults (configVars : List (String × VarMap))
    (defaults : List (String × VarMap)) : List (String × VarMap) :=
  defaults.foldl
    (fun acc p => setKey acc p.1 (spreadInto ((lookupKey p.1 acc).getD []) p.2))
    configVars

theorem spreadInto_lookup {α : Type} (k : String) :
    ∀ (b a : List (String × α)), (b.map Prod.fst).Nodup →
      lookupKey k (spreadInto a b) =
        match lookupKey k b with
        | some v => some v
        | none => lookupKey k a := by
  intro b
  induction b with
  | nil => intro a _; rfl
  | cons p rest ih =>
    intro a hnd
    obtain ⟨k1, v1⟩ := p
    rw [List.map_cons, List.nodup_cons] at hnd
    rw [spreadInto, List.foldl_cons]
    have hrest : lookupKey k (spreadInto (setKey a k1 v1) rest) =
        match lookupKey k rest with
        | some v => some v
        | none => lookupKey k (setKey a k1 v1) := ih (setKey a k1 v1) hnd.2
    rw [show (List.foldl (fun m p => setKey m p.1 p.2) (setKey a k1 v1) rest) =
      spreadInto (setKey a k1 v1) rest from rfl]
    rw [hrest, lookupKey]
    by_cases hk : k1 = k
    · rw [if_pos hk]
      rw [lookupKey_eq_none_of_not_mem (hk ▸ hnd.1)]
      rw [← hk, lookupKey_setKey_self]
    · rw [if_neg hk]
      cases lookupKey k rest with
      | some v => rfl
      | none => rw [lookupKey_setKey_ne _ _ hk]

theorem applyStackDefaults_absent (r : String) :
    ∀ (defaults configVars : List (String × VarMap)),
      lookupKey r defaults = none →
      lookupKey r (applyStackDefaults configVars defaults) = lookupKey r configVars := by
  intro defaults
  induction defaults with
  | nil => intro configVars _; rfl
  | cons p rest ih =>
    intro configVars habs
    obtain ⟨r1, dv⟩ := p
    rw [lookupKey] at habs
    by_cases h1 : r1 = r
    · rw [if_pos h1] at habs
      exact absurd habs (by simp)
    · rw [if_neg h1] at habs
      rw [applyStackDefaults, List.foldl_cons]
      rw [show (List.foldl _ _ rest : List (String × VarMap)) =
        applyStackDefaults (setKey configVars r1 (spreadInto ((lookupKey r1 configVars).getD []) dv)) rest from rfl]
      rw [ih _ habs, lookupKey_setKey_ne _ _ h1]

theorem applyStackDefaults_present (r k : String) :
    ∀ (defaults configVars : List (String × VarMap)) (dvars : VarMap),
      (defaults.map Prod.fst).Nodup →
      lookupKey r defaults = some dvars → (dvars.map Prod.fst).Nodup →
      lookupKey k ((lookupKey r (applyStackDefaults configVars defaults)).getD []) =
        match lookupKey k dvars with
        | some v => some v
        | none => lookupKey k ((lookupKey r configVars).getD []) := by
  intro defaults
  induction defaults with
  | nil => intro configVars dvars _ hsome _; exact absurd hsome (by simp [lookupKey])
  | cons p rest ih =>
    intro configVars dvars hnd hsome hdnd
    obtain ⟨r1, dv⟩ := p
    rw [List.map_cons, List.nodup_cons] at hnd
    rw [lookupKey] at hsome
    rw [applyStackDefaults, List.foldl_cons]
    rw [show (List.foldl _ _ rest : List (String × VarMap)) =
      applyStackDefaults (setKey configVars r1
        (spreadInto ((lookupKey r1 configVars).getD []) dv)) rest from rfl]
    by_cases h1 : r1 = r
    · rw [if_pos h1] at hsome
      have hdv : dv = dvars := by injection hsome
      subst hdv
      subst h1
      rw [applyStackDefaults_absent r1 rest _ (lookupKey_eq_none_of_not_mem hnd.1)]
      rw [lookupKey_setKey_self]
      rw [show (some (spreadInto ((lookupKey r1 configVars).getD []) dv)).getD [] =
        spreadInto ((lookupKey r1 configVars).getD []) dv from rfl]
      rw [spreadInto_lookup k dv ((lookupKey r1 configVars).getD []) hdnd]
      cases lookupKey k dv <;> rfl
    · rw [if_neg h1] at hsome
      rw [ih _ dvars hnd.2 hsome hdnd, lookupKey_setKey_ne _ _ h1]

/-- C6 (amended): at stack-add time, for a recipe named in the stack’s
defaults, the stack default for a key takes precedence over any explicit
per-recipe override already stored in the workspace; stored overrides
survive only for keys the stack’s defaults do not mention, and recipes
the stack does not mention keep their override map unchanged. -/
theorem applyStackDefaults_spec (configVars defaults : List (String × VarMap))
    (r k : String) (hnd : (defaults.map Prod.fst).Nodup) :
    (∀ dvars, lookupKey r defaults = some dvars → (dvars.map Prod.fst).Nodup →
      lookupKey k ((lookupKey r (applyStackDefaults configVars defaults)).getD []) =
        match lookupKey k dvars with
        | some v => some v
        | none => lookupKey k ((lookupKey r configVars).getD [])) ∧
    (lookupKey r defaults = none →
      lookupKey r (applyStackDefaults configVars defaults) = lookupKey r configVars) :=
  ⟨fun dvars hsome hdnd =>
    applyStackDefaults_present r k defaults configVars dvars hnd hsome hdnd,
   applyStackDefaults_absent r defaults configVars⟩

/-- C6 counterexample: with an explicit override `k = 1` already stored for
recipe `r`, adding a stack whose defaults carry `k = 2` for `r` leaves the
stored override at `2` — the stack default wins, the pre-existing explicit
override does not. -/
theorem applyStackDefaults_counterexample :
    lookupKey "k" ((lookupKey "r" (applyStackDefaults
        [("r", [("k", JValue.num 1)])] [("r", [("k", JValue.num 2)])])).getD []) =
      some (JValue.num 2) ∧
    JValue.num 2 ≠ JValue.num 1 :=
  ⟨rfl, by simp⟩

theorem applyStackDefaults_spec_witness :
    lookupKey "k" ((lookupKey "r" (applyStackDefaults [("r", [("k", JValue.num 1)])]
        [("r", [("k", JValue.num 2)])])).getD []) =
      match lookupKey "k" [("k", JValue.num 2)] with
      | some v => some v
      | none => lookupKey "k" ((lookupKey "r" [("r", [("k", JValue.num 1)])]).getD []) :=
  (applyStackDefaults_spec [("r", [("k", JValue.num 1)])] [("r", [("k", JValue.num 2)])]
    "r" "k" (by decide)).1 [("k", JValue.num 2)] rfl (by decide)

/-! ## Manifest loader (src/lib/recipes.ts: `loadRecipe`, `loadRecipeFromPath`) -/

/-- A manifest as parsed from YAML, before validation: the TS cast
`YAML.parse(content) as Recipe` checks nothing, so `name` and `version`
may be absent. -/
structure RawRecipe where
  name : Option String := none
  version : Option String := none
deriving Inhabited

/-- A parsed recipe reference (`RecipeSource` in src/lib/registry.ts). -/
structure RecipeSource where
  type : String
  name : String
  path : Option String := none
  repo : Option String := none
  ref : Option String := none
  subpath : Option String := none
deriving Inhabited

/-- `getLocalRecipesDir` (src/lib/paths.ts). -/
def getLocalRecipesDir (root : String) : String :=
  pathJoin (pathJoin root ".workspace") "recipes"

/-- `loadRecipeFromPath`: an absent file or a YAML parse failure yields
`null` (the surrounding catch rethrows only errors whose message contains
"Invalid recipe"); a parsed manifest with falsy `name` or `version`
throws the `ManifestInvalid` error. -/
def loadRecipeFromPath (parseYaml : String → Option RawRecipe) (fs : FS)
    (path : String) : Except String (Option RawRecipe) :=
  match fs path with
  | none => .ok none
  | some content =>
    match parseYaml content with
    | none => .ok none
    | some raw =>
      if truthyOptStr raw.name = false ∨ truthyOptStr raw.version = false then
        .error ("Invalid recipe at " ++ path)
      else .ok (some raw)

/-- `loadRecipe` after `parseRecipeRef` (the parsed source descriptor is
taken as input; `fetchGitRecipe` is an oracle returning the fetched cache
path or a fetch failure).

NOTE on the git branch: the TS code is
`try { const p = await fetchGitRecipe(source); return loadRecipeFromPath(join(p, "recipe.yaml")); } catch (err) { return null; }`.
The `return` is not awaited, so the `catch` only covers the awaited
`fetchGitRecipe` call: a rejection of `loadRecipeFromPath` (the
`ManifestInvalid` throw) propagates to `loadRecipe`'s caller. -/
def loadRecipe (parseYaml : String → Option RawRecipe) (fs : FS)
    (fetchGitRecipe : RecipeSource → Except String String) (builtinDir : String)
    (source : RecipeSource) (workspaceRoot : Option String) :
    Except String (Option RawRecipe) :=
  if source.type = "local" ∧ truthyOptStr source.path then
    match loadRecipeFromPath parseYaml fs (pathJoin (source.path.getD "") "recipe.yaml") with
    | .error e => .error e
    | .ok (some recipe) => .ok (some recipe)
    | .ok none =>
      -- "Also try if they specified the recipe.yaml directly"
      loadRecipeFromPath parseYaml fs (source.path.getD "")
  else
    match (match workspaceRoot with
           | none => Except.ok (none : Option RawRecipe)
           | some root =>
             loadRecipeFromPath parseYaml fs
               (pathJoin (pathJoin (getLocalRecipesDir root) source.name) "recipe.yaml")) with
    | .error e => .error e
    | .ok (some recipe) => .ok (some recipe)
    | .ok none =>
      match loadRecipeFromPath parseYaml fs
          (pathJoin (pathJoin builtinDir source.name) "recipe.yaml") with
      | .error e => .error e
      | .ok (some recipe) => .ok (some recipe)
      | .ok none =>
        if source.type = "git" then
          match fetchGitRecipe source with
          | .error _ => .ok none
          | .ok recipePath =>
            loadRecipeFromPath parseYaml fs (pathJoin recipePath "recipe.yaml")
        else .ok none

/-- The file at `path` holds a manifest that parses but lacks a truthy
`name` or `version`. -/
def InvalidManifestAt (parseYaml : String → Option RawRecipe) (fs : FS)
    (path : String) : Prop :=
  ∃ content raw, fs path = some content ∧ parseYaml content = some raw ∧
    (truthyOptStr raw.name = false ∨ truthyOptStr raw.version = false)

theorem loadRecipeFromPath_invalid {parseYaml : String → Option RawRecipe} {fs : FS}
    {path : String} (h : InvalidManifestAt parseYaml fs path) :
    loadRecipeFromPath parseYaml fs path = .error ("Invalid recipe at " ++ path) := by
  obtain ⟨content, raw, hc, hp, hbad⟩ := h
  rw [loadRecipeFromPath, hc]
  dsimp only
  rw [hp]
  dsimp only
  rw [if_pos hbad]

/-- C7: a manifest that parses but lacks a required `name`/`version` makes
`loadRecipe` fail with the `ManifestInvalid` error immediately — whichever
of the four resolution locations produced it (local path, local
workspace, built-in, fetched git source) — with no fall-through to the
remaining locations or to the `null` (NotFound) result. -/
theorem loadRecipe_manifestInvalid (parseYaml : String → Option RawRecipe) (fs : FS)
    (fetchGit : RecipeSource → Except String String) (builtinDir : String)
    (source : RecipeSource) (workspaceRoot : Option String) :
    ((source.type = "local" ∧ truthyOptStr source.path) →
      InvalidManifestAt parseYaml fs (pathJoin (source.path.getD "") "recipe.yaml") →
      loadRecipe parseYaml fs fetchGit builtinDir source workspaceRoot =
        .error ("Invalid recipe at " ++ pathJoin (source.path.getD "") "recipe.yaml")) ∧
    (¬ (source.type = "local" ∧ truthyOptStr source.path) →
      ∀ root, workspaceRoot = some root →
      InvalidManifestAt parseYaml fs
        (pathJoin (pathJoin (getLocalRecipesDir root) source.name) "recipe.yaml") →
      loadRecipe parseYaml fs fetchGit builtinDir source workspaceRoot =
        .error ("Invalid recipe at " ++
          pathJoin (pathJoin (getLocalRecipesDir root) source.name) "recipe.yaml")) ∧
    (¬ (source.type = "local" ∧ truthyOptStr source.path) →
      (workspaceRoot = none ∨ ∃ root, workspaceRoot = some root ∧
        loadRecipeFromPath parseYaml fs
          (pathJoin (pathJoin (getLocalRecipesDir root) source.name) "recipe.yaml") = .ok none) →
      InvalidManifestAt parseYaml fs
        (pathJoin (pathJoin builtinDir source.name) "recipe.yaml") →
      loadRecipe parseYaml fs fetchGit builtinDir source workspaceRoot =
        .error ("Invalid recipe at " ++
          pathJoin (pathJoin builtinDir source.name) "recipe.yaml")) ∧
    (¬ (source.type = "local" ∧ truthyOptStr source.path) →
      (workspaceRoot = none ∨ ∃ root, workspaceRoot = some root ∧
        loadRecipeFromPath parseYaml fs
          (pathJoin (pathJoin (getLocalRecipesDir root) source.name) "recipe.yaml") = .ok none) →
      loadRecipeFromPath parseYaml fs
        (pathJoin (pathJoin builtinDir source.name) "recipe.yaml") = .ok none →
      source.type = "git" →
      ∀ recipePath, fetchGit source = .ok recipePath →
      InvalidManifestAt parseYaml fs (pathJoin recipePath "recipe.yaml") →
      loadRecipe parseYaml fs fetchGit builtinDir source workspaceRoot =
        .error ("Invalid recipe at " ++ pathJoin recipePath "recipe.yaml")) := by
  refine ⟨?_, ?_, ?_, ?_⟩
  · intro hlocal hinv
    rw [loadRecipe.eq_def, if_pos hlocal, loadRecipeFromPath_invalid hinv]
  · intro hnl root hroot hinv
    rw [loadRecipe.eq_def, if_neg hnl, hroot]
    dsimp only
    rw [loadRecipeFromPath_invalid hinv]
  · intro hnl hws hinv
    rw [loadRecipe.eq_def, if_neg hnl]
    rcases hws with hws | ⟨root, hroot, hok⟩
    · rw [hws]
      dsimp only
      rw [loadRecipeFromPath_invalid hinv]
    · rw [hroot]
      dsimp only
      rw [hok]
      dsimp only
      rw [loadRecipeFromPath_invalid hinv]
  · intro hnl hws hbuiltin hgit recipePath hfetch hinv
    rw [loadRecipe.eq_def, if_neg hnl]
    have hrest : (if source.type = "git" then
        match fetchGit source with
        | .error _ => Except.ok (none : Option RawRecipe)
        | .ok recipePath => loadRecipeFromPath parseYaml fs (pathJoin recipePath "recipe.yaml")
        else Except.ok none) =
        .error ("Invalid recipe at " ++ pathJoin recipePath "recipe.yaml") := by
      rw [if_pos hgit, hfetch]
      dsimp only
      rw [loadRecipeFromPath_invalid hinv]
    rcases hws with hws | ⟨root, hroot, hok⟩
    · rw [hws]
      dsimp only
      rw [hbuiltin]
      dsimp only
      exact hrest
    · rw [hroot]
      dsimp only
      rw [hok]
      dsimp only
      rw [hbuiltin]
      dsimp only
      exact hrest

def parseYamlC7 : String → Option RawRecipe := fun s =>
  if s = "name-only" then some { name := some "x" } else none

def fsC7 : FS := fun p => if p = "cache/recipe.yaml" then some "name-only" else none

def fetchC7 : RecipeSource → Except String String := fun _ => .ok "cache"

def srcC7 : RecipeSource := { type := "git", name := "n" }

theorem loadRecipe_manifestInvalid_witness :
    loadRecipe parseYamlC7 fsC7 fetchC7 "b" srcC7 none =
      .error ("Invalid recipe at " ++ pathJoin "cache" "recipe.yaml") :=
  (loadRecipe_manifestInvalid parseYamlC7 fsC7 fetchC7 "b" srcC7 none).2.2.2
    (by decide) (.inl rfl) rfl rfl "cache" rfl
    ⟨"name-only", { name := some "x" }, rfl, rfl, .inr rfl⟩

/-! ## The `apply` command (src/commands/apply.ts)

`findWorkspaceRoot`/`getTargetDir` resolve paths from the invocation
context and are passed in as `root`/`targetDir`; `executeRecipe` runs
hooks and rules against the worktree filesystem and is an oracle
returning a success flag and the (possibly partially) updated
filesystem.  The on-disk Config and Lock are modelled explicitly so that
persistence can be observed. -/

/-- Everything `apply` can read or write on disk. -/
structure Disk where
  config : Option WorkspaceConfig
  lock : Option WorkspaceLock
  fs : FS

/-- Failures of the `apply` command. -/
inductive ApplyErr where
  | configNotFound
  | resolveFailed (e : ResolveErr)
  | recipeNotFound (name : String)
  | recipePathNotFound (name : String)
  | manifestInvalid (msg : String)
  | executeFailed (name : String)
deriving DecidableEq, Inhabited

/-- `recipeVars[key] ?? spec.default`: JS `??` falls back on `undefined`
and `null`. -/
def nullishDefault (v : Option JValue) (d : JValue) : JValue :=
  match v with
  | none => d
  | some .null => d
  | some v => v

/-- Effective variables of a recipe (apply.ts 76-82): for each declared
variable key in order, the stored override if present (and non-null),
else the declared default. -/
def computeVariables (recipe : Recipe) (recipeVars : VarMap) : VarMap :=
  match recipe.variables with
  | none => []
  | some vars =>
    vars.foldl (fun acc p => setKey acc p.1 (nullishDefault (lookupKey p.1 recipeVars) p.2.default)) []

/-- The per-recipe loop of `apply` (apply.ts 65-111): load the manifest,
compute variables, locate the recipe directory, pick the target by scope
and execute; a failure anywhere stops the loop with the filesystem as the
executor left it — nothing is persisted by the loop itself. -/
def applyLoop (envLoad : LoadEnv) (recipePathOf : String → Option String)
    (exec : Recipe → VarMap → String → FS → Bool × FS) (now : String)
    (config : WorkspaceConfig) (root targetDir : String) :
    List String → List InstalledRecipe → FS →
      (Except ApplyErr (List InstalledRecipe)) × FS
  | [], applied, fs => (.ok applied, fs)
  | name :: rest, applied, fs =>
    match envLoad name with
    | .error msg => (.error (.manifestInvalid msg), fs)
    | .ok none => (.error (.recipeNotFound name), fs)
    | .ok (some recipe) =>
      let vars := computeVariables recipe ((lookupKey name config.variables).getD [])
      match recipePathOf name with
      | none => (.error (.recipePathNotFound name), fs)
      | some _ =>
        let effectiveTarget := if recipe.scope.getD "worktree" = "workspace" then root else targetDir
        match exec recipe vars effectiveTarget fs with
        | (false, fs') => (.error (.executeFailed name), fs')
        | (true, fs') =>
          applyLoop envLoad recipePathOf exec now config root targetDir rest
            (applied ++ [{ name := recipe.name, version := recipe.version, applied_at := now }]) fs'

/-- The `apply` command (apply.ts 24-132): no-op when nothing is pending;
resolve the pending names; drop the already-installed ones; run the loop;
only after the whole loop succeeds append the new InstalledRecipe records,
clear `pending`, save Config and rewrite Lock. -/
def applyCommand (envLoad : LoadEnv) (recipePathOf : String → Option String)
    (exec : Recipe → VarMap → String → FS → Bool × FS) (now : String) (fuel : Nat)
    (root targetDir : String) (disk : Disk) : (Except ApplyErr Unit) × Disk :=
  match disk.config with
  | none => (.error .configNotFound, disk)
  | some config =>
    if config.pending.isEmpty then (.ok (), disk)
    else
      match resolveRecipeDependencies envLoad fuel config.pending with
      | .error e => (.error (.resolveFailed e), disk)
      | .ok resolved =>
        let toApply := resolved.filter (fun n => !(config.recipes.any (fun r => r.name == n)))
        if toApply.isEmpty then
          (.ok (), { disk with config := some { config with pending := [] } })
        else
          match applyLoop envLoad recipePathOf exec now config root targetDir toApply [] disk.fs with
          | (.error e, fs') => (.error e, { disk with fs := fs' })
          | (.ok applied, fs') =>
            (.ok (),
              { config := some { config with recipes := config.recipes ++ applied, pending := [] }
                lock := some { applied_at := now, recipes := config.recipes ++ applied,
                               «variables» := config.variables }
                fs := fs' })

/-- C2: whenever `apply` fails — in particular when a generation rule or a
hook of any recipe in the batch throws — neither Config nor Lock is
persisted: the on-disk Config (its `recipes`, `pending` and `variables`)
and the Lock file are exactly as before, even though the filesystem may
already carry the effects of recipes applied earlier in the batch. -/
theorem applyCommand_error_persists_nothing (envLoad : LoadEnv)
    (recipePathOf : String → Option String)
    (exec : Recipe → VarMap → String → FS → Bool × FS) (now : String) (fuel : Nat)
    (root targetDir : String) (disk disk' : Disk) (e : ApplyErr)
    (h : applyCommand envLoad recipePathOf exec now fuel root targetDir disk =
      (.error e, disk')) :
    disk'.config = disk.config ∧ disk'.lock = disk.lock := by
  rw [applyCommand] at h
  split at h
  · rename_i hc
    cases h
    exact ⟨rfl, rfl⟩
  · rename_i config hc
    split at h
    · exact absurd h (by simp)
    · split at h
      · rename_i e' hres
        cases h
        exact ⟨rfl, rfl⟩
      · rename_i resolved hres
        dsimp only at h
        split at h
        · exact absurd h (by simp)
        · split at h
          · rename_i fs' hloop
            cases h
            exact ⟨rfl, rfl⟩
          · rename_i applied fs' hloop
            exact absurd h (by simp)

def envC2 : LoadEnv := fun n =>
  if n = "r" then .ok (some { name := "r", version := "1" }) else .ok none

def configC2 : WorkspaceConfig :=
  { name := "proj", created_at := "t0", recipes := [], pending := ["r"], «variables» := [] }

def diskC2 : Disk := { config := some configC2, lock := none, fs := fun _ => none }

/-- An executor that leaves a filesystem effect behind and then fails
(a rule or hook throwing partway through). -/
def execFailC2 : Recipe → VarMap → String → FS → Bool × FS :=
  fun _ _ _ fs => (false, writeFile fs "w/half.txt" "partial effect")

theorem applyCommand_error_persists_nothing_witness :
    (applyCommand envC2 (fun _ => some "rp") execFailC2 "t1" 2 "root" "w" diskC2).2.config =
      diskC2.config ∧
    (applyCommand envC2 (fun _ => some "rp") execFailC2 "t1" 2 "root" "w" diskC2).2.lock =
      diskC2.lock :=
  applyCommand_error_persists_nothing envC2 (fun _ => some "rp") execFailC2 "t1" 2 "root" "w"
    diskC2 _ (.executeFailed "r") rfl
